import Mathlib

/-!
A shallow embedding of `src/PVCollection.js` (the `PVCollection` library:
an observable `Collection` of uniquely keyed `Model` records with a
snapshot-reconciliation operation `Collection.set`, attribute-level change
tracking in `Model.set`, jQuery-style deep `extend`, and the
underscore-derived deep equality `eq`).

Modelling conventions, stated once here:

* JavaScript values are embedded as the inductive `JsVal`; plain objects are
  ordered association lists (`JsFields`), mirroring insertion-ordered string
  keys.  Numbers are embedded as `Int` (every number the library's claims
  exercise is an integer; `NaN`/`-0` subtleties of the source's `eq` do not
  arise on this universe).  `JsVal.hostV tag` stands for host objects the
  models carry (moment timestamps, jQuery callback registries, functions,
  the owning collection): the library stores them on instances but never
  mixes them with plain attribute data.
* Mutable JS objects become explicit state passing: each operation takes the
  receiver and returns the updated receiver together with its return value
  and the list of events it fired (`trigger` calls), in order.
* `moment()` timestamps are modelled by a `now : Nat` clock argument; the
  process-wide incrementing id of `initIncrementId`/`uid` is threaded as a
  counter in the collection state (it is reset to 0 whenever a collection is
  constructed, as in the source).
* Reference identity (`===` on two objects) is not modelled: `jsStrictEq` is
  `false` on objects and host values, and theorems that need `===` on keys
  restrict keys to primitives, matching every use the claims exercise.
-/

namespace PVC

mutual
/-- JavaScript runtime values restricted to the shapes the library's data
paths manipulate. -/
inductive JsVal : Type where
  | undef : JsVal
  | null : JsVal
  | boolV : Bool → JsVal
  | numV : Int → JsVal
  | strV : String → JsVal
  | hostV : String → JsVal
  | objV : JsFields → JsVal

/-- The ordered own enumerable string-keyed fields of a plain JS object. -/
inductive JsFields : Type where
  | nil : JsFields
  | cons : String → JsVal → JsFields → JsFields
end

namespace JsFields

/-- `obj[k]`: reading an absent property yields `undefined`. -/
def get : JsFields → String → JsVal
  | .nil, _ => .undef
  | .cons k v rest, q => if k == q then v else get rest q

/-- `obj.hasOwnProperty(k)`. -/
def hasKey : JsFields → String → Bool
  | .nil, _ => false
  | .cons k _ rest, q => k == q || hasKey rest q

/-- `Object.keys(obj)` lookup as an `Option`, first entry wins. -/
def lookupOpt : JsFields → String → Option JsVal
  | .nil, _ => none
  | .cons k v rest, q => if k == q then some v else lookupOpt rest q

/-- `obj[k] = v`: overwrite in place if the key exists (keeping its
position), otherwise append a new key in insertion order. -/
def set : JsFields → String → JsVal → JsFields
  | .nil, q, w => .cons q w .nil
  | .cons k v rest, q, w =>
      if k == q then .cons k w rest else .cons k v (set rest q w)

/-- `Object.keys(obj)` in order. -/
def keys : JsFields → List String
  | .nil => []
  | .cons k _ rest => k :: keys rest

/-- `Object.keys(obj).length`. -/
def length : JsFields → Nat
  | .nil => 0
  | .cons _ _ rest => length rest + 1

def isEmpty : JsFields → Bool
  | .nil => true
  | .cons _ _ _ => false

def toList : JsFields → List (String × JsVal)
  | .nil => []
  | .cons k v rest => (k, v) :: toList rest

def ofList : List (String × JsVal) → JsFields
  | [] => .nil
  | (k, v) :: rest => .cons k v (ofList rest)

def append : JsFields → JsFields → JsFields
  | .nil, ys => ys
  | .cons k v rest, ys => .cons k v (append rest ys)

end JsFields

namespace JsVal

/-- JavaScript truthiness: `undefined`, `null`, `false`, `0` and `""` are
falsy; every object (host objects included) is truthy. -/
def truthy : JsVal → Bool
  | .undef => false
  | .null => false
  | .boolV x => x
  | .numV x => !(x == 0)
  | .strV x => !(x == "")
  | .hostV _ => true
  | .objV _ => true

/-- The `typeof` categories the embedding distinguishes. -/
inductive Ty : Type where
  | undefTy | objectTy | boolTy | numberTy | stringTy | functionTy
deriving DecidableEq

def typeOf : JsVal → Ty
  | .undef => .undefTy
  | .null => .objectTy
  | .boolV _ => .boolTy
  | .numV _ => .numberTy
  | .strV _ => .stringTy
  | .hostV _ => .objectTy
  | .objV _ => .objectTy

def isObj : JsVal → Bool
  | .objV _ => true
  | _ => false

/-- Whether a value is a string/number/boolean primitive (the shapes the
library uses as unique-key values). -/
def prim : JsVal → Bool
  | .boolV _ => true
  | .numV _ => true
  | .strV _ => true
  | _ => false

end JsVal

/-- JavaScript strict equality `===`, restricted to the embedded universe.
Two objects (or host values) are `===` only when they are the same
reference; reference identity is not modelled, so the embedding returns
`false` for them (all uses the claims exercise compare primitives). -/
def jsStrictEq : JsVal → JsVal → Bool
  | .undef, .undef => true
  | .null, .null => true
  | .boolV a, .boolV b => a == b
  | .numV a, .numV b => a == b
  | .strV a, .strV b => a == b
  | _, _ => false

/-- `parseInt(v, 10)` as used by `Collection.remove`: numbers parse to
themselves (keys are integral), decimal strings parse, everything else is
`NaN` (`none`). -/
def jsParseInt : JsVal → Option Int
  | .numV n => some n
  | .strV s => s.toInt?
  | _ => none

/-- The JS `<` relation as used by the default sort comparator
`a.attributes[f] < b.attributes[f]`: number/number and string/string
compare by value; the mixed cases the claims never exercise are `false`. -/
def jsLtVal : JsVal → JsVal → Bool
  | .numV a, .numV b => a < b
  | .strV a, .strV b => a < b
  | _, _ => false

mutual
/-- The underscore-derived structural equality `eq`/`isEqual` of the source
(lines 1157-1259), restricted to the embedded universe: values of different
runtime class are unequal, `null`/`undefined` equal only themselves,
primitives compare by value, plain objects by key-count plus per-key
recursive equality.  Host values compare by tag (standing for comparing an
object with itself); a host value never equals a plain data value, as in
the source (the constructor check at lines 1201-1206 fails). -/
def jsEq : JsVal → JsVal → Bool
  | .undef, .undef => true
  | .null, .null => true
  | .boolV a, .boolV b => a == b
  | .numV a, .numV b => a == b
  | .strV a, .strV b => a == b
  | .hostV a, .hostV b => a == b
  | .objV xs, .objV ys => xs.length == ys.length && jsEqFields xs ys
  | _, _ => false

/-- The object branch of `eq`: every key of `xs` must be an own key of `ys`
with recursively equal value (the key-count check makes this symmetric). -/
def jsEqFields : JsFields → JsFields → Bool
  | .nil, _ => true
  | .cons k v rest, ys =>
      (match ys.lookupOpt k with
       | some w => jsEq v w
       | none => false) && jsEqFields rest ys
end

mutual
/-- One step of jQuery `$.extend(true, tgt, src)` (deep merge) for a single
source entry `k : v`: a plain-object value is merged recursively into the
existing plain-object value of `tgt` at `k` (or into a fresh empty object),
`undefined` values are skipped, and everything else (host objects included,
which are not `isPlainObject`) is assigned. -/
def jqMergeVal (tgt : JsFields) (k : String) : JsVal → JsFields
  | .objV fs =>
      let base : JsFields :=
        match tgt.get k with
        | .objV bs => bs
        | _ => .nil
      tgt.set k (.objV (jqMergeFs base fs))
  | .undef => tgt
  | v => tgt.set k v

/-- jQuery `$.extend(true, tgt, src)`: fold the source's entries, in order,
into the target. -/
def jqMergeFs (tgt : JsFields) : JsFields → JsFields
  | .nil => tgt
  | .cons k v rest => jqMergeFs (jqMergeVal tgt k v) rest
end

/-- `$.extend(true, a, b)` composed the way the source always uses it:
`$.extend(true, {}, a, b)` — clone `a` into a fresh object, then deep-merge
`b` over it. -/
def jqExtend2 (a b : JsFields) : JsFields :=
  jqMergeFs (jqMergeFs .nil a) b

/-- `$.extend(true, {}, v)` for a single arbitrary value `v`, as in
`Model.get`'s array branch (line 894): a plain object is deep-cloned; a
string contributes its index-to-character fields (for-in over the wrapper);
`undefined`/`null` sources are skipped and numbers/booleans have no
enumerable properties, all yielding `\x7b\x7d`.  (Host-object sources do not
arise on the claims' inputs and yield the empty object here.) -/
def jqExtendEmptyOne : JsVal → JsFields
  | .objV fs => jqMergeFs .nil fs
  | .strV s =>
      JsFields.ofList ((s.toList.zip (List.range s.length)).map
        (fun p => (toString p.2, .strV (String.singleton p.1))))
  | _ => .nil

/- ------------------------------------------------------------------ -/
/- Cleanliness: the faithfulness condition for embedded object values  -/
/- ------------------------------------------------------------------ -/

mutual
/-- A value is *clean* when it is plain data with no `undefined` components
and no duplicate keys at any object level (JS objects cannot carry
duplicate keys; the embedding's association lists can, so cleanliness is
the faithfulness condition for object values). -/
def JsVal.cleanV : JsVal → Bool
  | .undef => false
  | .objV fs => JsFields.cleanF fs
  | _ => true

/-- All fields clean and keys pairwise distinct, recursively. -/
def JsFields.cleanF : JsFields → Bool
  | .nil => true
  | .cons k v rest => !(rest.hasKey k) && JsVal.cleanV v && JsFields.cleanF rest
end

/- ------------------------------------------------------------------ -/
/- Model (the source's `Model` class, the spec's "Record")             -/
/- ------------------------------------------------------------------ -/

/-- A `Model` instance (source lines 784-829).  Fields mirror the instance
properties the constructor sets: `attributes`, `changedAttributes`,
`_dirty`, `created`/`modified` (as clock ticks), `_uniqueField` (always
`"id"` at construction), `_hasBeenRendered`, and `collection` (tracked as a
presence flag, since only its object-ness is ever observed here).
`extraProps` holds expando properties assigned at runtime (`model[key] =
value` with a key that is not one of the instance/prototype properties).
The random `guid`, the `options` object, `debug`, template machinery and
the `_events` registry are observed by the claims only through `typeof` and
the event lists operations return, so they are represented in
`Model.propTypeof`/`Model.propView` rather than as state. -/
structure Model where
  attributes : JsFields
  changedAttributes : JsFields
  dirty : Bool
  created : Nat
  modified : Nat
  uniqueField : String
  hasBeenRendered : Bool
  hasCollection : Bool
  extraProps : JsFields

/-- The `Model` constructor (lines 784-829 plus `_initialize`, 836-853),
with the template-less, override-free configuration every use in the claims
exercises: attributes are stored, and if the unique-key attribute is absent
or falsy it is assigned from the incrementing `uid` counter (line 808-810);
`changedAttributes` starts empty and `_dirty` ends `false` after
`_initialize`.  Returns the model and the advanced counter.
`Model.needsId` is the guard of line 808: the key attribute is absent from
`Object.keys` or falsy. -/
def Model.needsId (attrs : JsFields) : Bool :=
  !(attrs.hasKey "id") || !((attrs.get "id").truthy)

def Model.make (attrs : JsFields) (hasColl : Bool) (uid now : Nat) :
    Model × Nat :=
  let attrs' := if Model.needsId attrs
                then attrs.set "id" (.numV (Int.ofNat uid)) else attrs
  let uid' := if Model.needsId attrs then uid + 1 else uid
  ({ attributes := attrs', changedAttributes := .nil, dirty := false,
     created := now, modified := now, uniqueField := "id",
     hasBeenRendered := false, hasCollection := hasColl,
     extraProps := .nil }, uid')

/-- `m.attributes[m._uniqueField]`, the reconciliation key. -/
def Model.keyOf (m : Model) : JsVal := m.attributes.get m.uniqueField

/-- `Model.prototype.clean` (lines 868-873). -/
def Model.clean (m : Model) : Model :=
  { m with changedAttributes := .nil, dirty := false }

/-- `Model.prototype.toJSON` (lines 1039-1041): a deep copy of
`attributes` via `$.extend(true, \x7b\x7d, this.attributes)`. -/
def Model.toJSONF (m : Model) : JsFields := jqMergeFs .nil m.attributes

/-- The `Model.prototype` method names (all of `typeof` function). -/
def Model.methodNames : List String :=
  ["_initialize", "initialize", "clean", "get", "set", "render",
   "getAttributes", "parser", "toJSON", "onChange", "onRender", "onDirty",
   "onError", "log", "initTemplate", "on", "off", "trigger"]

/-- `typeof model[k]` for a model in the default (template-less,
override-free, collection-constructed or standalone) configuration.
Instance properties that are objects — `options`, `changedAttributes`,
`collection` (an object or `null`, and `typeof null === "object"`),
the two moment timestamps, `attributes`, `_events`, `$el` (`null`) and
`template` (`null` here, since the modelled configurations carry no
template) — report `"object"`; prototype methods report `"function"`;
everything else falls through to the expando properties, absent ones being
`undefined`. -/
def Model.propTypeof (m : Model) (k : String) : JsVal.Ty :=
  if k == "guid" || k == "_uniqueField" || k == "templateRender" then .stringTy
  else if k == "debug" || k == "_dirty" || k == "_hasBeenRendered" then .boolTy
  else if k == "options" || k == "changedAttributes" || k == "collection"
       || k == "created" || k == "modified" || k == "attributes"
       || k == "_events" || k == "$el" || k == "template" then .objectTy
  else if Model.methodNames.contains k then .functionTy
  else (m.extraProps.get k).typeOf

/-- The value of `model[k]`, as read for the `internal` comparisons of
`Model.prototype.set` (line 941).  Host-object properties (the random
`guid` string, moments, the options object, the callback registry,
functions) are represented as `hostV` tags: the source's `eq` never equates
them with the plain data values patches carry, and no claim compares two of
them. -/
def Model.propView (m : Model) (k : String) : JsVal :=
  if k == "_uniqueField" then .strV m.uniqueField
  else if k == "templateRender" then .strV ""
  else if k == "guid" then .hostV "guid"
  else if k == "debug" then .boolV false
  else if k == "_dirty" then .boolV m.dirty
  else if k == "_hasBeenRendered" then .boolV m.hasBeenRendered
  else if k == "attributes" then .objV m.attributes
  else if k == "changedAttributes" then .objV m.changedAttributes
  else if k == "collection" then
    (if m.hasCollection then .hostV "collection" else .null)
  else if k == "created" then .hostV "moment"
  else if k == "modified" then .hostV "moment"
  else if k == "options" then .hostV "options"
  else if k == "_events" then .hostV "events"
  else if k == "$el" then .null
  else if k == "template" then .null
  else if Model.methodNames.contains k then .hostV "function"
  else m.extraProps.get k

/-- The change-collection loop of `Model.prototype.set`'s object branch
(lines 939-947): for each patch entry, the new value is compared (via `eq`)
against `model[k]` if `internal`, else `model.attributes[k]`, and differing
entries are written into `this.changedAttributes` — a mutation of the
original record, threaded here because the loop reads `model[k]` of the
partially updated record. -/
def Model.mappingChanges (m : Model) (internal : Bool) : JsFields → Model
  | .nil => m
  | .cons k v rest =>
      let localProp := if internal then m.propView k else m.attributes.get k
      let m' := if jsEq localProp v then m
                else { m with changedAttributes := m.changedAttributes.set k v }
      Model.mappingChanges m' internal rest

/-- The deep copy `$.extend(true, \x7b\x7d, model)` takes of a model: the
plain-object own properties (`attributes`, `changedAttributes`, expandos)
are deep-cloned (which, as with any jQuery deep extend, drops
`undefined`-valued entries), while host-object properties (moments, the
collection back-reference, the callback registry — whose handler list
lives in shared closure state) are copied by reference, so the flags and
ticks carry over unchanged. -/
def Model.clone (m : Model) : Model :=
  { m with attributes := jqMergeFs .nil m.attributes,
           changedAttributes := jqMergeFs .nil m.changedAttributes,
           extraProps := jqMergeFs .nil m.extraProps }

/-- Merging one patch entry over a model copy, as `$.extend(true, \x7b\x7d,
model, key)` does after the clone: the boolean/string instance fields are
overwritten (tracked through their truthiness/string content), the
plain-object fields are deep-merged, and any other key becomes (or
deep-merges into) an expando property.  Patches that overwrite structural
fields with unrepresentable values (for example a number over
`attributes`) are outside the modelled universe and leave the field
unchanged; no claim exercises them. -/
def Model.mergePatchProp (m : Model) (k : String) (v : JsVal) : Model :=
  if k == "_dirty" then { m with dirty := v.truthy }
  else if k == "_hasBeenRendered" then { m with hasBeenRendered := v.truthy }
  else if k == "_uniqueField" then
    match v with
    | .strV s => { m with uniqueField := s }
    | _ => m
  else if k == "attributes" then
    match v with
    | .objV fs => { m with attributes := jqMergeFs m.attributes fs }
    | _ => m
  else if k == "changedAttributes" then
    match v with
    | .objV fs => { m with changedAttributes := jqMergeFs m.changedAttributes fs }
    | _ => m
  else
    { m with extraProps := jqMergeVal m.extraProps k v }

/-- Fold `Model.mergePatchProp` over the patch entries in order. -/
def Model.mergePatch (m : Model) : JsFields → Model
  | .nil => m
  | .cons k v rest => Model.mergePatch (Model.mergePatchProp m k v) rest

/-- A raw property assignment `model[key] = value` (the `internal` single
key/value branch, line 958), with the same representability note as
`Model.mergePatchProp`. -/
def Model.setRawProp (m : Model) (k : String) (v : JsVal) : Model :=
  if k == "_dirty" then { m with dirty := v.truthy }
  else if k == "_hasBeenRendered" then { m with hasBeenRendered := v.truthy }
  else if k == "_uniqueField" then
    match v with
    | .strV s => { m with uniqueField := s }
    | _ => m
  else if k == "attributes" then
    match v with
    | .objV fs => { m with attributes := fs }
    | _ => m
  else if k == "changedAttributes" then
    match v with
    | .objV fs => { m with changedAttributes := fs }
    | _ => m
  else { m with extraProps := m.extraProps.set k v }

/-- The argument of `Model.prototype.set` after JavaScript's positional
shifting: the single key/value form `set(key, value, internal, silent)`,
the mapping form `set(patch, internal, silent)` (in the source the object
branch reassigns `silent = internal; internal = value`), or a call with no
arguments. -/
inductive MArg : Type where
  | kv (k : String) (v : JsVal)
  | mapping (patch : JsFields)
  | noArgs

/-- The outcome of a `Model.prototype.set` call: `ret` is the returned
object (the rebound copy on the internal mapping path, with `retIsCopy =
true`, otherwise the record itself), `self` is the state of the original
record after the call, `ok` is the truthiness of the return value, and the
`fired*` flags record the events triggered (on `ret`'s behalf). -/
structure MSetRes where
  ret : Model
  self : Model
  retIsCopy : Bool
  ok : Bool
  firedError : Bool
  firedChange : Bool
  firedDirty : Bool

/-- `Model.prototype.set` (lines 917-983).  Mapping form: differing entries
are collected into the original's `changedAttributes`; then, if
`internal`, the local variable is rebound to a deep copy merged with the
patch (`model = $.extend(true, \x7b\x7d, model, key)`, line 951) so the
timestamp advance, the dirty flag, the dirty/change events and their
handler effects (`onDirty` clears `_hasBeenRendered`) all land on the
copy; otherwise `attributes` is replaced by `$.extend(true, \x7b\x7d,
attributes, patch)`.  Single key/value form: the value is assigned (to
`attributes[key]`, or raw to `model[key]` if `internal`) and recorded in
`changedAttributes` unconditionally.  `modified` advances exactly when
`changedAttributes` is non-empty after the call — including entries left
over from earlier calls, since nothing clears it here.  The record is
always marked dirty and `"dirty"` always fires; `"change"` fires unless
`silent`.  A call with no arguments fires `"error"` and returns a falsy
sentinel without mutating anything. -/
def Model.set (m : Model) (arg : MArg) (internal silent : Bool) (now : Nat) :
    MSetRes :=
  match arg with
  | .noArgs =>
      { ret := m, self := m, retIsCopy := false, ok := false,
        firedError := true, firedChange := false, firedDirty := false }
  | .mapping patch =>
      let m1 := m.mappingChanges internal patch
      if internal then
        let copy0 := Model.mergePatch (Model.clone m1) patch
        let copy1 := if copy0.changedAttributes.length != 0
                     then { copy0 with modified := now } else copy0
        let copy2 := { copy1 with dirty := true, hasBeenRendered := false }
        { ret := copy2, self := m1, retIsCopy := true, ok := true,
          firedError := false, firedChange := !silent, firedDirty := true }
      else
        let m2 := { m1 with attributes := jqExtend2 m1.attributes patch }
        let m3 := if m2.changedAttributes.length != 0
                  then { m2 with modified := now } else m2
        let m4 := { m3 with dirty := true, hasBeenRendered := false }
        { ret := m4, self := m4, retIsCopy := false, ok := true,
          firedError := false, firedChange := !silent, firedDirty := true }
  | .kv k v =>
      let m1 := if internal then m.setRawProp k v
                else { m with attributes := m.attributes.set k v }
      let m2 := { m1 with changedAttributes := m1.changedAttributes.set k v }
      let m3 := if m2.changedAttributes.length != 0
                then { m2 with modified := now } else m2
      let m4 := { m3 with dirty := true, hasBeenRendered := false }
      { ret := m4, self := m4, retIsCopy := false, ok := true,
        firedError := false, firedChange := !silent, firedDirty := true }

/-- The copy condition of `Model.prototype.get`'s array branch (line 893):
the source tests `typeof model[k] === "object"` — the type of the *model's
own property* named `k`, not of the attribute value. -/
def Model.getCopiesAt (m : Model) (k : String) : Bool :=
  m.propTypeof k == .objectTy

/-- Accumulator loop of `Model.prototype.get` with an array argument
(lines 887-900): for each requested key, `result[k]` is
`$.extend(true, \x7b\x7d, model.attributes[k])` when `typeof model[k]` is
`"object"`, and the attribute value itself (by reference) otherwise. -/
def Model.getListGo (m : Model) (acc : JsFields) : List String → JsFields
  | [] => acc
  | k :: rest =>
      let acc' := if m.getCopiesAt k
        then acc.set k (.objV (jqExtendEmptyOne (m.attributes.get k)))
        else acc.set k (m.attributes.get k)
      Model.getListGo m acc' rest

/-- `Model.prototype.get` with an array of keys. -/
def Model.getList (m : Model) (ks : List String) : JsFields :=
  m.getListGo .nil ks

/- ------------------------------------------------------------------ -/
/- Collection                                                          -/
/- ------------------------------------------------------------------ -/

/-- Events a collection triggers, with the payloads the claims observe.
`remove` wraps its removed model in the array `Array.prototype.splice`
returns, so the `removed` payload of a `"change"` event is a list of such
one-element arrays, exactly as in the source (lines 421, 433-437,
267-270, 312-316). -/
inductive CEvent : Type where
  | dirtyE : CEvent
  | changeE (added : List Model) (removed : List (List Model))
            (changed : List Model) : CEvent
  | sortE : CEvent
  | errorE (message : String) : CEvent
  | clearE : CEvent

def CEvent.isChange : CEvent → Bool
  | .changeE _ _ _ => true
  | _ => false

def CEvent.isError : CEvent → Bool
  | .errorE _ => true
  | _ => false

def containsChange (evs : List CEvent) : Bool := evs.any CEvent.isChange
def containsError (evs : List CEvent) : Bool := evs.any CEvent.isError

/-- A `Collection` instance (lines 14-64) in the default configuration (no
template, no `functions` overrides): `items`, the cached `length`, the
status flags `_dirty`, `_isSorted`, `_hasBeenRendered`, `firstSet`, the
process-wide `uid` counter (`initIncrementId` resets it to 0 during
`_initialize`), and the base model's default attributes
(`collection.model.attributes`, merged under each added item's data).
`isDirtyProp` is the value of the property `_isDirty` that
`Collection.prototype.isDirty` reads (line 104): no constructor or method
ever assigns `_isDirty` (they all assign `_dirty`), so it stays
`undefined`; it is carried as state so that this fact is a theorem about
the operations rather than a definition. -/
structure Collection where
  items : List Model
  length : Nat
  dirty : Bool
  isDirtyProp : JsVal
  isSorted : Bool
  hasBeenRendered : Bool
  firstSet : Bool
  uidCounter : Nat
  templAttrs : JsFields

/-- The `Collection` constructor (lines 14-64) plus `_initialize`
(71-93): empty items, zero length, clean flags, `uid` counter reset to 0. -/
def Collection.make (templAttrs : JsFields) : Collection :=
  { items := [], length := 0, dirty := false, isDirtyProp := .undef,
    isSorted := true, hasBeenRendered := false, firstSet := true,
    uidCounter := 0, templAttrs := templAttrs }

/-- `Collection.prototype.isDirty` (lines 103-105): returns
`this._isDirty`. -/
def Collection.isDirty (c : Collection) : JsVal := c.isDirtyProp

/-- `Collection.prototype.isSorted`. -/
def Collection.isSortedFn (c : Collection) : Bool := c.isSorted

/-- `Collection.prototype.clean` (lines 149-159): clears the collection's
`_dirty` flag and, when `deep`, cleans every item. -/
def Collection.clean (c : Collection) (deep : Bool) : Collection :=
  { c with dirty := false,
           items := if deep then c.items.map Model.clean else c.items }

/-- The default sort comparator (lines 32-34):
`a.attributes[f] < b.attributes[f] ? 1 : -1` — `a` sorts before `b`
exactly when the comparator returns `-1`, i.e. when `a`'s key is not
`<` `b`'s. -/
def defaultKeepsBefore (a b : Model) : Bool :=
  !(jsLtVal (Model.keyOf a) (Model.keyOf b))

/-- Stable insertion of `x` into `l`: `x` goes before the first element it
may stay before. -/
def insertBy (le : Model → Model → Bool) (x : Model) : List Model → List Model
  | [] => [x]
  | y :: ys => if le x y then x :: y :: ys else y :: insertBy le x ys

/-- A stable sort by the comparator-derived "keeps before" relation.
`Array.prototype.sort` is stable (ES2019) and the default comparator is a
strict total order on the distinct primitive keys every claim exercises,
so any conforming engine produces this order. -/
def sortItems (le : Model → Model → Bool) (l : List Model) : List Model :=
  l.foldr (insertBy le) []

/-- `Collection.prototype.sort` (lines 486-503) with the default
comparator: sorts `items`, fires `"sort"` unless silent, sets
`_isSorted`. -/
def Collection.sortC (c : Collection) (silent : Bool) :
    Collection × List CEvent :=
  ({ c with items := sortItems defaultKeepsBefore c.items, isSorted := true },
   if silent then [] else [.sortE])

/-- Result of `Collection.prototype.add`. -/
structure AddRes where
  coll : Collection
  added : List Model
  events : List CEvent

/-- The item-construction loop of `add` (lines 343-349): each plain item is
merged over the base model's default attributes
(`$.extend(true, \x7b\x7d, collection.model.attributes, itemData)`) and
passed to the `Model` constructor, threading the `uid` counter. -/
def Collection.buildModels (templAttrs : JsFields) (uid now : Nat) :
    List JsFields → List Model × Nat
  | [] => ([], uid)
  | itemData :: rest =>
      let (m, uid') := Model.make (jqExtend2 templAttrs itemData) true uid now
      let (ms, uid'') := Collection.buildModels templAttrs uid' now rest
      (m :: ms, uid'')

/-- `Collection.prototype.add` (lines 330-382) for an already-normalized
array argument: constructs a model per item (with no key deduplication),
appends them, clears the render cache, recomputes `length`, sorts unless
`noSort` (the sort fires `"sort"`), and if anything was added marks the
collection dirty, fires `"dirty"`, and fires `"change"` with the added
models unless `silent`. -/
def Collection.add (c : Collection) (itemsArg : List JsFields)
    (silent noSort : Bool) (now : Nat) : AddRes :=
  let (newModels, uid') :=
    Collection.buildModels c.templAttrs c.uidCounter now itemsArg
  let c1 := { c with items := c.items ++ newModels, uidCounter := uid',
                     hasBeenRendered := false }
  let c2 := { c1 with length := c1.items.length }
  let (c3, sortEvs) := if noSort then (c2, []) else c2.sortC false
  if newModels.isEmpty then
    { coll := { c3 with firstSet := false }, added := newModels,
      events := sortEvs }
  else
    { coll := { c3 with dirty := true, firstSet := false },
      added := newModels,
      events := sortEvs ++ [.dirtyE] ++
        (if silent then [] else [.changeE newModels [] []]) }

/-- `Array.prototype.map(...).indexOf(...)` fused: index of the first
element satisfying the match predicate, `none` for `-1`. -/
def idxOfMatch {α : Type} (p : α → Bool) : List α → Option Nat
  | [] => none
  | x :: rest => if p x then some 0 else (idxOfMatch p rest).map (· + 1)

/-- The identifier argument of `Collection.prototype.remove`: a raw value
(id) or a model instance. -/
inductive RemArg : Type where
  | rawV (v : JsVal)
  | modelR (m : Model)

/-- `this.trigger('error', ...)` on a *Collection* in the default
configuration.  The constructor binds `onError` to the `"error"` event
(line 81), and `Collection.prototype.onError` (line 772) calls
`this.error(...)` — a method that exists nowhere (the prototype defines
`log`, never `error`) — so firing the event appends it to the handler
trace and then raises `TypeError`: the flag returned alongside the trace
records that the surrounding call aborts by exception instead of
returning. -/
def Collection.triggerError (events : List CEvent) (msg : String) :
    List CEvent × Bool :=
  (events ++ [.errorE msg], true)

/-- Result of `Collection.prototype.remove`: `threw` records whether the
call aborted with the `TypeError` the default `"error"` handler raises
(in which case nothing is returned and the remaining fields describe the
state at the throw); otherwise `ok` is the truthiness of the return value
and `removedArr` the array `splice` returned. -/
structure RemRes where
  coll : Collection
  ok : Bool
  threw : Bool
  removedArr : List Model
  events : List CEvent

/-- `Array.prototype.splice(i, 1)` including the `i = -1` case JavaScript
applies when `indexOf` found nothing: a negative start counts from the
end, so `splice(-1, 1)` removes the *last* element of a non-empty array
(and nothing from an empty one).  Returns (remaining, removed). -/
def splice1 {α : Type} (l : List α) (idx : Option Nat) : List α × List α :=
  match idx with
  | some i => (l.take i ++ l.drop (i + 1), (l.drop i).take 1)
  | none => (l.take (l.length - 1), l.drop (l.length - 1))

/-- `Collection.prototype.remove` (lines 389-446): the identifier is
parsed with `parseInt` (a model argument contributes its unique-key
value); an unparseable non-model argument triggers `"error"` with no
mutation — which in the default configuration raises `TypeError` out of
the call (see `Collection.triggerError`), so the `return false` at line
411 is unreachable.  Otherwise the index of the first item whose key
is `===` the identifier is spliced out — with the `-1`/last-element
behaviour of `splice` when no item matches — `length` is recomputed, the
render cache cleared, the collection marked dirty, `"dirty"` fired, and
`"change"` fired with `removed = [sliceResult]` unless silent. -/
def Collection.remove (c : Collection) (arg : RemArg)
    (silent : Bool) : RemRes :=
  let idOpt : Option JsVal :=
    match arg with
    | .rawV v =>
        match jsParseInt v with
        | some n => some (.numV n)
        | none => none
    | .modelR m => some (Model.keyOf m)
  match idOpt with
  | none =>
      let (evs, thrown) := Collection.triggerError []
        "Missing or unrecognized data passed to Collection.remove"
      { coll := c, ok := false, threw := thrown, removedArr := [],
        events := evs }
  | some idv =>
      let idx := idxOfMatch (fun m => jsStrictEq (Model.keyOf m) idv) c.items
      let (remaining, removed) := splice1 c.items idx
      let c1 := { c with items := remaining, length := remaining.length,
                         hasBeenRendered := false, dirty := true }
      { coll := c1, ok := true, threw := false, removedArr := removed,
        events := [.dirtyE] ++
          (if silent then [] else [.changeE [] [removed] []]) }

/-- `collection.toJSON().items` (lines 125-143): each item's `toJSON`. -/
def Collection.toJSONitems (c : Collection) : List JsFields :=
  c.items.map Model.toJSONF

/-- Replace the first item whose key is `===` the given key value.  In the
source the change phase mutates the matched record through its reference;
records are values here, so the write-back goes to the first item carrying
the record's key — exact whenever item keys are pairwise distinct, which
every theorem below either hypothesizes or exhibits concretely. -/
def replaceByKey (kv : JsVal) (newM : Model) : List Model → List Model
  | [] => []
  | m :: rest =>
      if jsStrictEq (Model.keyOf m) kv then newM :: rest
      else m :: replaceByKey kv newM rest

/-- `items.splice(itemIdx, 1)[0]` on the working copy of the snapshot:
consume the element at the found index, or — when `indexOf` yielded `-1` —
the *last* element (JavaScript's negative-start splice), `[0]` of an empty
splice being `undefined`.  Returns (consumed element, remaining). -/
def consumeAt {α : Type} (working : List α) (idx : Option Nat) :
    Option α × List α :=
  match idx with
  | some i => (working.get? i, working.take i ++ working.drop (i + 1))
  | none => (working.get? (working.length - 1),
             working.take (working.length - 1))

/-- State threaded through the change phase of `Collection.prototype.set`:
the live items, the working copy of the snapshot being consumed, the
accumulated changed records, and whether `_isSorted` was invalidated. -/
structure ChangeSt where
  citems : List Model
  working : List JsFields
  changed : List Model
  unsorted : Bool

/-- One iteration of the change phase (lines 274-286): find the matching
snapshot element by the record's key, consume it (`splice`), apply it via
`oldItem.set(newItem, false, true)` — the object branch of `Model.set`
with `internal = false`, `silent = true` — and record the item as changed
when its (never previously cleared) `changedAttributes` is non-empty.
When the match is gone (possible only with duplicate keys), `splice(-1,1)`
hands back the last working element, or `undefined` from an empty one, in
which case `oldItem.set(undefined, false, true)` takes the single
key/value branch with key `"undefined"`, value `false`, `internal = true`. -/
def Collection.changeStep (now : Nat) (st : ChangeSt) (old : Model) :
    ChangeSt :=
  let idx := idxOfMatch
    (fun x => jsStrictEq (x.get old.uniqueField) (Model.keyOf old)) st.working
  let (niOpt, working') := consumeAt st.working idx
  let res : MSetRes :=
    match niOpt with
    | some ni => old.set (.mapping ni) false true now
    | none => old.set (.kv "undefined" (.boolV false)) true false now
  let citems' := replaceByKey (Model.keyOf old) res.self st.citems
  if res.self.changedAttributes.length != 0 then
    { citems := citems', working := working',
      changed := st.changed ++ [res.self], unsorted := true }
  else
    { citems := citems', working := working',
      changed := st.changed, unsorted := st.unsorted }

/-- One iteration of `set`'s remove phase (lines 262-271): remove the
record silently via `Collection.remove`, accumulating the returned splice
array and the events fired. -/
def Collection.removeStep
    (p : Collection × List (List Model) × List CEvent) (m : Model) :
    Collection × List (List Model) × List CEvent :=
  let r := Collection.remove p.1 (.modelR m) true
  (r.coll, p.2.1 ++ [r.removedArr], p.2.2 ++ r.events)

/-- The classification predicate of `set` (lines 249-251): whether the
snapshot holds an element whose value at the record's unique-key field is
`===` the record's current key value. -/
def Collection.setMatched (itemsL : List JsFields) (m : Model) : Bool :=
  (idxOfMatch
    (fun x => jsStrictEq (x.get m.uniqueField) (Model.keyOf m))
    itemsL).isSome

/-- The argument to `Collection.prototype.set`: a proper array of plain
items, or anything else (missing, `null`, or a non-array value) which the
guard at lines 224-232 rejects. -/
inductive SetArg : Type where
  | nonArray (v : JsVal)
  | arr (itemsL : List JsFields)

/-- Result of `Collection.prototype.set`: the reconciliation lists are the
ones the `"change"` payload carries; `threw` records whether the call
aborted with the `TypeError` the default `"error"` handler raises (the
validation failure's `return false` at line 231 is unreachable in the
default configuration, so `ok` — the truthiness of the returned value —
is meaningful only when `threw = false`). -/
structure SetRes where
  coll : Collection
  ok : Bool
  threw : Bool
  added : List Model
  removed : List (List Model)
  changed : List Model
  events : List CEvent

/-- `Collection.prototype.set` (lines 223-323).  A non-array argument
triggers `"error"` before touching anything — which in the default
configuration raises `TypeError` out of the call (see
`Collection.triggerError`), so the `return false` at line 231 is
unreachable.  Otherwise:
classify every current record by whether the snapshot holds an element
whose value at the record's unique-key field is `===` the record's key
(lines 246-259); remove the unmatched ones silently via
`Collection.remove`, collecting the splice arrays (262-271); for each
matched record consume its matching element from the working snapshot and
apply it with `Model.set(·, false, true)`, collecting records whose
`changedAttributes` ends non-empty (274-286); `add` the leftover elements
silently without sorting (289-296); sort once (299); recompute `length`;
and if any list is non-empty clear the render cache, mark dirty, fire
`"dirty"` and — unless `options.silent` — fire `"change"` with the three
lists (305-318).  `firstSet` is cleared unconditionally. -/
def Collection.set (c : Collection) (arg : SetArg) (silent : Bool)
    (now : Nat) : SetRes :=
  match arg with
  | .nonArray _ =>
      let (evs, thrown) := Collection.triggerError []
        "Collection.set() must receive an array of items as the first argument"
      { coll := c, ok := false, threw := thrown, added := [], removed := [],
        changed := [], events := evs }
  | .arr itemsL =>
      let toBeRemoved := c.items.filter
        (fun m => !(Collection.setMatched itemsL m))
      let toBeChanged := c.items.filter (Collection.setMatched itemsL)
      let c0 := if toBeRemoved.isEmpty then c else { c with isSorted := false }
      let rstate := toBeRemoved.foldl Collection.removeStep (c0, [], [])
      let c1 := rstate.1
      let removedItems := rstate.2.1
      let removeEvs := rstate.2.2
      let cst := toBeChanged.foldl (Collection.changeStep now)
        { citems := c1.items, working := itemsL, changed := [],
          unsorted := false }
      let c2 := { c1 with items := cst.citems,
                          isSorted := if cst.unsorted then false else c1.isSorted }
      let addRes :=
        if cst.working.isEmpty then
          ({ coll := c2, added := [], events := [] } : AddRes)
        else Collection.add { c2 with isSorted := false } cst.working true true now
      let (c4, sortEvs) := addRes.coll.sortC false
      let c5 := { c4 with length := c4.items.length }
      if addRes.added.isEmpty && removedItems.isEmpty && cst.changed.isEmpty
      then
        { coll := { c5 with firstSet := false }, ok := true, threw := false,
          added := addRes.added, removed := removedItems,
          changed := cst.changed,
          events := removeEvs ++ addRes.events ++ sortEvs }
      else
        { coll := { c5 with hasBeenRendered := false, dirty := true,
                            firstSet := false },
          ok := true, threw := false, added := addRes.added,
          removed := removedItems,
          changed := cst.changed,
          events := removeEvs ++ addRes.events ++ sortEvs ++ [.dirtyE] ++
            (if silent then []
             else [.changeE addRes.added removedItems cst.changed]) }

/- ------------------------------------------------------------------ -/
/- Predicates used by the hypotheses of the general theorems           -/
/- ------------------------------------------------------------------ -/

/-- All entries of a patch carry values structurally equal (per the
source's `eq`) to the record's current attribute values — the "nothing
actually differs" condition of `Model.set`'s external mapping form. -/
def patchAllEqB (m : Model) : JsFields → Bool
  | .nil => true
  | .cons k v rest => jsEq (m.attributes.get k) v && patchAllEqB m rest

/-- Pairwise `===`-distinctness of a list of key values. -/
def keysDistinctB : List JsVal → Bool
  | [] => true
  | k :: rest => rest.all (fun q => !(jsStrictEq k q)) && keysDistinctB rest

/-- Whether a key value occurs (`===`) among the values of a list, element
first in the comparison as in the source's `indexOf` matching. -/
def keyInB (kv : JsVal) (l : List JsVal) : Bool :=
  l.any (fun q => jsStrictEq kv q)

/-- A collection whose records are in the pristine state `clean(true)`
leaves them in: default `"id"` unique field, primitive keys, empty
`changedAttributes`, clean attribute objects. -/
def cleanStateB (c : Collection) : Bool :=
  c.items.all (fun m =>
    m.uniqueField == "id" && (Model.keyOf m).prim
      && m.changedAttributes.isEmpty && m.attributes.cleanF)

/-- The at-most-one-per-key state invariant together with the regularity
every reachable well-keyed state enjoys: default `"id"` field and
primitive, truthy keys. -/
def invB (c : Collection) : Bool :=
  c.items.all (fun m =>
    m.uniqueField == "id" && (Model.keyOf m).prim && (Model.keyOf m).truthy)
    && keysDistinctB (c.items.map Model.keyOf)

/-- A well-formed snapshot payload: every item is a clean plain object
carrying an explicit primitive truthy `"id"`, and the ids are pairwise
distinct. -/
def payloadOkB (p : List JsFields) : Bool :=
  p.all (fun fs => fs.cleanF && (fs.get "id").prim && (fs.get "id").truthy)
    && keysDistinctB (p.map (fun fs => fs.get "id"))

/-- A membership-mutating operation of the at-most-one-per-key claim. -/
inductive COp : Type where
  | addOp (payload : List JsFields)
  | setOp (payload : List JsFields)

/-- Validity of one operation against the current state: well-formed
payload, and for `add` (which never deduplicates) ids disjoint from the
current keys. -/
def opOkB (c : Collection) : COp → Bool
  | .addOp p => payloadOkB p &&
      p.all (fun fs => c.items.all
        (fun m => !(jsStrictEq (fs.get "id") (Model.keyOf m))))
  | .setOp p => payloadOkB p

def applyOp (c : Collection) (now : Nat) : COp → Collection
  | .addOp p => (c.add p false false now).coll
  | .setOp p => (c.set (.arr p) false now).coll

def opsOkB (c : Collection) (now : Nat) : List COp → Bool
  | [] => true
  | op :: rest => opOkB c op && opsOkB (applyOp c now op) now rest

def runOps (c : Collection) (now : Nat) : List COp → Collection
  | [] => c
  | op :: rest => runOps (applyOp c now op) now rest

/- ------------------------------------------------------------------ -/
/- Concrete fixtures used by counterexamples and witnesses             -/
/- ------------------------------------------------------------------ -/

def exItem1 : JsFields := .ofList [("id", .numV 1), ("name", .strV "a")]
def exItem2 : JsFields := .ofList [("id", .numV 2), ("name", .strV "b")]
def exItem3 : JsFields := .ofList [("id", .numV 3), ("name", .strV "c")]

def exElem2 (n : String) : JsFields := .ofList [("id", .numV 2), ("name", .strV n)]
def exElem3 (n : String) : JsFields := .ofList [("id", .numV 3), ("name", .strV n)]
def exElem4 : JsFields := .ofList [("id", .numV 4), ("name", .strV "d")]

/-- A collection freshly populated with clean records of keys 1, 2, 3. -/
def exColl123 : Collection :=
  ((Collection.make .nil).add [exItem1, exItem2, exItem3] false false 1).coll

/-- The C1 counterexample setting: reconcile once so that the record with
key 2 accumulates a non-empty `changedAttributes` (its name becomes
`"x"`), leaving current keys 1, 2, 3. -/
def exC1pre : Collection :=
  (exColl123.set (.arr [exItem1, exElem2 "x", exItem3]) false 2).coll

/-- The snapshot element with key 2 the stale record already equals. -/
def exC1elem2 : JsFields := exElem2 "x"

/-- The C1 counterexample call: snapshot keys 2, 3, 4 whose elements for
keys 2 and 3 are value-equal to the current attributes. -/
def exC1res : SetRes :=
  exC1pre.set (.arr [exC1elem2, exItem3, exElem4]) false 3

/-- The C2 counterexample setting: one record whose `changedAttributes`
is stale from an earlier reconciliation. -/
def exC2coll : Collection :=
  (((Collection.make .nil).add [exItem1] false false 1).coll.set
    (.arr [.ofList [("id", .numV 1), ("name", .strV "z")]]) false 2).coll

def exC2res : SetRes := exC2coll.set (.arr exC2coll.toJSONitems) false 3

/-- The C3 counterexample: a single `set` whose snapshot repeats key 1. -/
def exC3res : SetRes :=
  (Collection.make .nil).set
    (.arr [.ofList [("id", .numV 1)], .ofList [("id", .numV 1)]]) false 1

/-- C4 fixture: one successful `add`. -/
def exC4res : AddRes :=
  (Collection.make .nil).add [.ofList [("id", .numV 1)]] false false 1

/-- C7 fixture: a collection with keys 2, 1 (comparator order). -/
def exC7coll : Collection :=
  ((Collection.make .nil).add [exItem1, exItem2] false false 1).coll

def exC7res : RemRes := exC7coll.remove (.rawV (.numV 99)) false

/-- C8 fixture: adding an item with no id to a fresh collection. -/
def exC8res : AddRes :=
  (Collection.make .nil).add [.ofList [("name", .strV "x")]] false false 1

/-- C5/C10 fixture: a clean standalone record. -/
def exModel0 : Model :=
  (Model.make (.ofList [("id", .numV 1), ("name", .strV "a")]) false 5 0).1

def exC5res : MSetRes := exModel0.set (.kv "name" (.strV "a")) false false 9

/-- C9 fixture: a record with a structured attribute under a key that is
not a model property. -/
def exModel9 : Model :=
  (Model.make (.ofList
    [("id", .numV 1), ("data", .objV (.cons "x" (.numV 1) .nil))]) false 5 0).1

def exC10res : MSetRes :=
  exModel0.set (.mapping (.cons "foo" (.strV "bar") .nil)) true false 9

/- ------------------------------------------------------------------ -/
/- Basic lemmas                                                        -/
/- ------------------------------------------------------------------ -/

/-- Structural induction for `JsFields` alone (the mutual recursor has two
motives, which the `induction` tactic cannot use directly). -/
@[induction_eliminator]
theorem JsFields.inductionOn (motive : JsFields → Prop) (nil : motive .nil)
    (cons : ∀ k v rest, motive rest → motive (.cons k v rest)) :
    ∀ fs, motive fs
  | .nil => nil
  | .cons k v rest => cons k v rest (JsFields.inductionOn motive nil cons rest)

theorem JsFields.get_set_self (fs : JsFields) (k : String) (v : JsVal) :
    (fs.set k v).get k = v := by
  induction fs with
  | nil => simp [JsFields.set, JsFields.get]
  | cons k0 v0 rest ih =>
      by_cases h : k0 = k
      · subst h; simp [JsFields.set, JsFields.get]
      · simp [JsFields.set, JsFields.get, beq_iff_eq, h, ih]

theorem JsFields.get_set_ne (fs : JsFields) (k q : String) (v : JsVal)
    (h : k ≠ q) : (fs.set k v).get q = fs.get q := by
  induction fs with
  | nil => simp [JsFields.set, JsFields.get, beq_iff_eq, h]
  | cons k0 v0 rest ih =>
      by_cases h0 : k0 = k
      · subst h0; simp [JsFields.set, JsFields.get, beq_iff_eq, h]
      · simp [JsFields.set, JsFields.get, beq_iff_eq, h0, ih]

theorem JsVal.truthy_ne_undef (v : JsVal) (h : v.truthy = true) :
    v ≠ .undef := by
  intro h'; subst h'; simp [JsVal.truthy] at h

theorem jsStrictEq_refl_prim (v : JsVal) (h : v.prim = true) :
    jsStrictEq v v = true := by
  cases v <;> simp_all [JsVal.prim, jsStrictEq]

theorem jsStrictEq_prim_eq (v w : JsVal) (hp : v.prim = true)
    (h : jsStrictEq v w = true) : v = w := by
  cases v <;> cases w <;> simp_all [JsVal.prim, jsStrictEq]

theorem JsFields.hasKey_set_self (fs : JsFields) (k : String) (v : JsVal) :
    (fs.set k v).hasKey k = true := by
  induction fs with
  | nil => simp [JsFields.set, JsFields.hasKey]
  | cons k0 v0 rest ih =>
      by_cases h : k0 = k
      · subst h; simp [JsFields.set, JsFields.hasKey]
      · simp [JsFields.set, JsFields.hasKey, beq_iff_eq, h, ih]

theorem JsFields.hasKey_set_mono (fs : JsFields) (k q : String) (v : JsVal)
    (h : fs.hasKey q = true) : (fs.set k v).hasKey q = true := by
  induction fs with
  | nil => simp [JsFields.hasKey] at h
  | cons k0 v0 rest ih =>
      by_cases h0 : k0 = k
      · subst h0
        simp only [JsFields.set, beq_self_eq_true, if_true]
        simp only [JsFields.hasKey, Bool.or_eq_true] at h ⊢
        exact h
      · simp only [JsFields.set, beq_iff_eq, h0, if_false, JsFields.hasKey,
          Bool.or_eq_true] at h ⊢
        rcases h with h | h
        · exact Or.inl h
        · exact Or.inr (ih h)

theorem JsFields.hasKey_set (fs : JsFields) (k q : String) (v : JsVal) :
    (fs.set k v).hasKey q = (k == q || fs.hasKey q) := by
  induction fs with
  | nil => simp [JsFields.set, JsFields.hasKey]
  | cons k0 v0 rest ih =>
      by_cases h : k0 = k
      · subst h
        simp only [JsFields.set, beq_self_eq_true, if_true, JsFields.hasKey]
        cases hq : (k0 == q) <;> simp [hq]
      · simp only [JsFields.set, beq_iff_eq, h, if_false, JsFields.hasKey, ih]
        cases (k0 == q) <;> cases (k == q) <;> simp

theorem JsFields.set_length_ne_zero (fs : JsFields) (k : String)
    (v : JsVal) : ((fs.set k v).length != 0) = true := by
  cases fs with
  | nil => simp [JsFields.set, JsFields.length]
  | cons k0 v0 rest =>
      by_cases h : k0 = k <;>
        simp [JsFields.set, JsFields.length, beq_iff_eq, h]

theorem JsFields.isEmpty_nil (fs : JsFields) (h : fs.isEmpty = true) :
    fs = .nil := by
  cases fs with
  | nil => rfl
  | cons k v rest => simp [JsFields.isEmpty] at h

/-- If nothing in the patch differs (per `eq`) from the record's current
attributes, the external change-collection loop is the identity. -/
theorem Model.mappingChanges_allEq (p : JsFields) : ∀ m : Model,
    patchAllEqB m p = true → Model.mappingChanges m false p = m := by
  induction p with
  | nil => intro m _; rfl
  | cons k v rest ih =>
      intro m h
      simp only [patchAllEqB, Bool.and_eq_true] at h
      simp only [Model.mappingChanges, Bool.false_eq_true, if_false]
      rw [if_pos h.1]
      exact ih m h.2

/-- Keys recorded in `changedAttributes` survive the rest of the loop. -/
theorem Model.mappingChanges_hasKey_mono (i : Bool) (p : JsFields) :
    ∀ (m : Model) (q : String), m.changedAttributes.hasKey q = true →
    (Model.mappingChanges m i p).changedAttributes.hasKey q = true := by
  induction p with
  | nil => intro m q h; exact h
  | cons k v rest ih =>
      intro m q h
      simp only [Model.mappingChanges]
      by_cases hc :
          jsEq (if i then m.propView k else m.attributes.get k) v = true
      · rw [if_pos hc]; exact ih m q h
      · rw [if_neg hc]
        exact ih _ q (JsFields.hasKey_set_mono _ _ _ _ h)

/-- A patch entry whose value differs (per `eq`) from the current
attribute value is recorded in the original's `changedAttributes` by the
external change-collection loop. -/
theorem Model.mappingChanges_records (p : JsFields) :
    ∀ (m : Model) (k : String) (v : JsVal), (k, v) ∈ p.toList →
    jsEq (m.attributes.get k) v = false →
    (Model.mappingChanges m false p).changedAttributes.hasKey k = true := by
  induction p with
  | nil => intro m k v h _; simp [JsFields.toList] at h
  | cons k0 v0 rest ih =>
      intro m k v hmem hne
      simp only [JsFields.toList, List.mem_cons] at hmem
      simp only [Model.mappingChanges, Bool.false_eq_true, if_false]
      rcases hmem with heq | hmem
      · injection heq with h1 h2
        subst h1; subst h2
        rw [if_neg (by simp [hne])]
        exact Model.mappingChanges_hasKey_mono false rest _ _
          (JsFields.hasKey_set_self _ _ _)
      · by_cases hc : jsEq (m.attributes.get k0) v0 = true
        · rw [if_pos hc]; exact ih m k v hmem hne
        · rw [if_neg hc]; exact ih _ k v hmem hne

/-- Exact per-key description of the external change-collection loop: a
key is present in `changedAttributes` afterwards exactly when it was
already there or some patch entry under that key carries a value differing
(per `eq`) from the record's current attribute value. -/
theorem Model.mappingChanges_hasKey_iff (p : JsFields) :
    ∀ (m : Model) (q : String),
    ((Model.mappingChanges m false p).changedAttributes.hasKey q = true) ↔
      (m.changedAttributes.hasKey q = true ∨
       ∃ w, (q, w) ∈ p.toList ∧ jsEq (m.attributes.get q) w = false) := by
  induction p with
  | nil =>
      intro m q
      simp [Model.mappingChanges, JsFields.toList]
  | cons k v rest ih =>
      intro m q
      simp only [Model.mappingChanges, Bool.false_eq_true, if_false]
      by_cases hc : jsEq (m.attributes.get k) v = true
      · rw [if_pos hc, ih m q]
        have hx : (∃ w, (q, w) ∈ (JsFields.cons k v rest).toList ∧
            jsEq (m.attributes.get q) w = false) ↔
            (∃ w, (q, w) ∈ rest.toList ∧
              jsEq (m.attributes.get q) w = false) := by
          constructor
          · rintro ⟨w, hw, hne⟩
            simp only [JsFields.toList, List.mem_cons] at hw
            rcases hw with heq | hw
            · injection heq with h1 h2
              subst h1; subst h2
              exact absurd hc (by rw [hne]; simp)
            · exact ⟨w, hw, hne⟩
          · rintro ⟨w, hw, hne⟩
            refine ⟨w, ?_, hne⟩
            simp only [JsFields.toList, List.mem_cons]
            exact Or.inr hw
        exact or_congr Iff.rfl hx.symm
      · rw [if_neg hc]
        have ihm : ((Model.mappingChanges
              { m with changedAttributes := m.changedAttributes.set k v }
              false rest).changedAttributes.hasKey q = true) ↔
            ((m.changedAttributes.set k v).hasKey q = true ∨
             ∃ w, (q, w) ∈ rest.toList ∧
               jsEq (m.attributes.get q) w = false) := ih _ q
        rw [ihm, JsFields.hasKey_set]
        constructor
        · rintro (h | ⟨w, hw, hne⟩)
          · rcases (Bool.or_eq_true _ _).mp h with hkq | hca
            · have hq : k = q := beq_iff_eq.mp hkq
              subst hq
              refine Or.inr ⟨v, by simp [JsFields.toList], ?_⟩
              cases hx : jsEq (m.attributes.get k) v
              · rfl
              · exact absurd hx hc
            · exact Or.inl hca
          · refine Or.inr ⟨w, ?_, hne⟩
            simp only [JsFields.toList, List.mem_cons]
            exact Or.inr hw
        · rintro (h | ⟨w, hw, hne⟩)
          · refine Or.inl ?_
            rw [Bool.or_eq_true]
            exact Or.inr h
          · simp only [JsFields.toList, List.mem_cons] at hw
            rcases hw with heq | hw
            · injection heq with h1 h2
              subst h1; subst h2
              refine Or.inl ?_
              rw [Bool.or_eq_true]
              exact Or.inl (beq_iff_eq.mpr rfl)
            · exact Or.inr ⟨w, hw, hne⟩


theorem JsFields.append_nil (fs : JsFields) : fs.append .nil = fs := by
  induction fs with
  | nil => rfl
  | cons k v rest ih => simp [JsFields.append, ih]

theorem JsFields.append_assoc (a b c : JsFields) :
    (a.append b).append c = a.append (b.append c) := by
  induction a with
  | nil => rfl
  | cons k v rest ih => simp [JsFields.append, ih]

theorem JsFields.hasKey_append (a b : JsFields) (q : String) :
    (a.append b).hasKey q = (a.hasKey q || b.hasKey q) := by
  induction a with
  | nil => simp [JsFields.append, JsFields.hasKey]
  | cons k v rest ih =>
      simp [JsFields.append, JsFields.hasKey, ih, Bool.or_assoc]

theorem JsFields.get_undef_of_not_hasKey (fs : JsFields) (k : String)
    (h : fs.hasKey k = false) : fs.get k = .undef := by
  induction fs with
  | nil => rfl
  | cons k0 v0 rest ih =>
      simp only [JsFields.hasKey, Bool.or_eq_false_iff] at h
      simp [JsFields.get, h.1, ih h.2]

theorem JsFields.set_absent_append (fs : JsFields) (k : String) (v : JsVal)
    (h : fs.hasKey k = false) : fs.set k v = fs.append (.cons k v .nil) := by
  induction fs with
  | nil => rfl
  | cons k0 v0 rest ih =>
      simp only [JsFields.hasKey, Bool.or_eq_false_iff] at h
      simp [JsFields.set, JsFields.append, h.1, ih h.2]

theorem JsFields.cleanF_cons (k : String) (v : JsVal) (rest : JsFields)
    (h : (JsFields.cons k v rest).cleanF = true) :
    rest.hasKey k = false ∧ v.cleanV = true ∧ rest.cleanF = true := by
  simp only [JsFields.cleanF, Bool.and_eq_true, Bool.not_eq_true'] at h
  exact ⟨h.1.1, h.1.2, h.2⟩

mutual

theorem jqMergeVal_clean : ∀ (v : JsVal) (tgt : JsFields) (k : String),
    tgt.hasKey k = false → v.cleanV = true → jqMergeVal tgt k v = tgt.set k v
  | .undef, tgt, k, _, hc => by simp [JsVal.cleanV] at hc
  | .null, _, _, _, _ => rfl
  | .boolV _, _, _, _, _ => rfl
  | .numV _, _, _, _, _ => rfl
  | .strV _, _, _, _, _ => rfl
  | .hostV _, _, _, _, _ => rfl
  | .objV fs, tgt, k, hk, hc => by
      have hg : tgt.get k = .undef := JsFields.get_undef_of_not_hasKey tgt k hk
      have hf : jqMergeFs .nil fs = fs := by
        have h := jqMergeFs_clean fs .nil (fun q _ => rfl)
          (by simpa [JsVal.cleanV] using hc)
        simpa [JsFields.append] using h
      simp [jqMergeVal, hg, hf]

theorem jqMergeFs_clean : ∀ (fs tgt : JsFields),
    (∀ q, fs.hasKey q = true → tgt.hasKey q = false) → fs.cleanF = true →
    jqMergeFs tgt fs = tgt.append fs
  | .nil, tgt, _, _ => (JsFields.append_nil tgt).symm
  | .cons k v rest, tgt, hdisj, hc => by
      obtain ⟨hrk, hcv, hcr⟩ := JsFields.cleanF_cons k v rest hc
      have hk : tgt.hasKey k = false :=
        hdisj k (by simp [JsFields.hasKey])
      have h1 : jqMergeVal tgt k v = tgt.set k v :=
        jqMergeVal_clean v tgt k hk hcv
      have h2 : tgt.set k v = tgt.append (.cons k v .nil) :=
        JsFields.set_absent_append tgt k v hk
      have h3 : jqMergeFs (tgt.append (.cons k v .nil)) rest
          = (tgt.append (.cons k v .nil)).append rest := by
        apply jqMergeFs_clean rest
        · intro q hq
          have hqk : (k == q) = false := by
            by_cases hqe : k = q
            · subst hqe; rw [hq] at hrk; exact absurd hrk (by simp)
            · simp [beq_iff_eq, hqe]
          have htq : tgt.hasKey q = false :=
            hdisj q (by simp [JsFields.hasKey, hq])
          simp [JsFields.hasKey_append, JsFields.hasKey, htq, hqk]
        · exact hcr
      calc jqMergeFs tgt (.cons k v rest)
          = jqMergeFs (jqMergeVal tgt k v) rest := rfl
        _ = jqMergeFs (tgt.append (.cons k v .nil)) rest := by rw [h1, h2]
        _ = (tgt.append (.cons k v .nil)).append rest := h3
        _ = tgt.append (.cons k v rest) := by
              rw [JsFields.append_assoc]; rfl

end

theorem jqMergeFs_nil_clean (fs : JsFields) (h : fs.cleanF = true) :
    jqMergeFs .nil fs = fs := by
  have := jqMergeFs_clean fs .nil (fun q _ => rfl) h
  simpa [JsFields.append] using this


theorem Model.getListGo_notmem (m : Model) (ks : List String) :
    ∀ (acc : JsFields) (k : String), k ∉ ks →
    (Model.getListGo m acc ks).get k = acc.get k := by
  induction ks with
  | nil => intro acc k _; rfl
  | cons k0 rest ih =>
      intro acc k hk
      simp only [List.mem_cons, not_or] at hk
      simp only [Model.getListGo]
      split <;>
        rw [ih _ k hk.2, JsFields.get_set_ne _ _ _ _ (fun h => hk.1 h.symm)]

theorem Model.getListGo_get (m : Model) (ks : List String) :
    ∀ (acc : JsFields) (k : String), k ∈ ks →
    (Model.getListGo m acc ks).get k =
      (if Model.getCopiesAt m k
       then .objV (jqExtendEmptyOne (m.attributes.get k))
       else m.attributes.get k) := by
  induction ks with
  | nil => intro acc k h; simp at h
  | cons k0 rest ih =>
      intro acc k hmem
      by_cases hk : k ∈ rest
      · simp only [Model.getListGo]
        split <;> exact ih _ k hk
      · have hk0 : k = k0 := by
          rcases List.mem_cons.mp hmem with h | h
          · exact h
          · exact absurd h hk
        subst hk0
        simp only [Model.getListGo]
        by_cases hc : Model.getCopiesAt m k = true
        · rw [if_pos hc, if_pos hc, Model.getListGo_notmem m rest _ k hk,
            JsFields.get_set_self]
        · rw [if_neg hc, if_neg hc, Model.getListGo_notmem m rest _ k hk,
            JsFields.get_set_self]

theorem Model.getListGo_hasKey_mono (m : Model) (ks : List String) :
    ∀ (acc : JsFields) (k : String), acc.hasKey k = true →
    (Model.getListGo m acc ks).hasKey k = true := by
  induction ks with
  | nil => intro acc k h; exact h
  | cons k0 rest ih =>
      intro acc k h
      simp only [Model.getListGo]
      split <;> exact ih _ k (JsFields.hasKey_set_mono _ _ _ _ h)

theorem Model.getListGo_hasKey (m : Model) (ks : List String) :
    ∀ (acc : JsFields) (k : String), k ∈ ks →
    (Model.getListGo m acc ks).hasKey k = true := by
  induction ks with
  | nil => intro acc k h; simp at h
  | cons k0 rest ih =>
      intro acc k hmem
      by_cases hk : k ∈ rest
      · simp only [Model.getListGo]; split <;> exact ih _ k hk
      · have hk0 : k = k0 := by
          rcases List.mem_cons.mp hmem with h | h
          · exact h
          · exact absurd h hk
        subst hk0
        simp only [Model.getListGo]
        split <;> exact Model.getListGo_hasKey_mono m rest _ k
          (JsFields.hasKey_set_self _ _ _)



theorem JsFields.hasKey_of_mem_toList : ∀ (fs : JsFields) (k : String)
    (v : JsVal), (k, v) ∈ fs.toList → fs.hasKey k = true := by
  intro fs
  induction fs with
  | nil => intro k v h; simp [JsFields.toList] at h
  | cons k0 v0 rest ih =>
      intro k v h
      simp only [JsFields.toList, List.mem_cons] at h
      rcases h with h | h
      · injection h with h1 h2; subst h1; simp [JsFields.hasKey]
      · simp [JsFields.hasKey, ih k v h]

theorem JsFields.cleanV_of_mem_toList : ∀ (fs : JsFields) (k : String)
    (v : JsVal), fs.cleanF = true → (k, v) ∈ fs.toList → v.cleanV = true := by
  intro fs
  induction fs with
  | nil => intro k v _ h; simp [JsFields.toList] at h
  | cons k0 v0 rest ih =>
      intro k v hc h
      obtain ⟨_, hv0, hr⟩ := JsFields.cleanF_cons k0 v0 rest hc
      simp only [JsFields.toList, List.mem_cons] at h
      rcases h with h | h
      · injection h with h1 h2; subst h2; exact hv0
      · exact ih k v hr h

theorem JsFields.lookupOpt_of_mem_clean : ∀ (fs : JsFields) (k : String)
    (v : JsVal), fs.cleanF = true → (k, v) ∈ fs.toList →
    fs.lookupOpt k = some v := by
  intro fs
  induction fs with
  | nil => intro k v _ h; simp [JsFields.toList] at h
  | cons k0 v0 rest ih =>
      intro k v hc h
      obtain ⟨hk0, _, hr⟩ := JsFields.cleanF_cons k0 v0 rest hc
      simp only [JsFields.toList, List.mem_cons] at h
      rcases h with h | h
      · injection h with h1 h2; subst h1; subst h2
        simp [JsFields.lookupOpt]
      · have hne : k0 ≠ k := by
          intro he; subst he
          rw [JsFields.hasKey_of_mem_toList rest k0 v h] at hk0
          exact absurd hk0 (by simp)
        simp [JsFields.lookupOpt, beq_iff_eq, hne, ih k v hr h]

theorem JsFields.get_of_mem_clean (fs : JsFields) (k : String) (v : JsVal)
    (hc : fs.cleanF = true) (h : (k, v) ∈ fs.toList) : fs.get k = v := by
  have hl := JsFields.lookupOpt_of_mem_clean fs k v hc h
  induction fs with
  | nil => simp [JsFields.lookupOpt] at hl
  | cons k0 v0 rest ih =>
      by_cases he : k0 = k
      · subst he
        simp only [JsFields.lookupOpt, beq_self_eq_true, if_true,
          Option.some.injEq] at hl
        simp [JsFields.get, hl]
      · simp only [JsFields.lookupOpt, beq_iff_eq, he, if_false] at hl
        obtain ⟨_, _, hr⟩ := JsFields.cleanF_cons k0 v0 rest (by exact hc)
        simp only [JsFields.get, beq_iff_eq, he, if_false]
        exact ih hr (by
          simp only [JsFields.toList, List.mem_cons] at h
          rcases h with h | h
          · injection h with h1 _; exact absurd h1.symm he
          · exact h) hl

mutual

theorem jsEq_refl : ∀ v : JsVal, v.cleanV = true → jsEq v v = true
  | .undef, h => by simp [JsVal.cleanV] at h
  | .null, _ => rfl
  | .boolV _, _ => by simp [jsEq]
  | .numV _, _ => by simp [jsEq]
  | .strV _, _ => by simp [jsEq]
  | .hostV _, _ => by simp [jsEq]
  | .objV fs, h => by
      have hc : fs.cleanF = true := by simpa [JsVal.cleanV] using h
      have hsub := jsEqFields_of fs fs hc (fun _ _ hm => hm)
      simp [jsEq, hsub]

theorem jsEqFields_of : ∀ (xs ys : JsFields),
    ys.cleanF = true →
    (∀ k v, (k, v) ∈ xs.toList → (k, v) ∈ ys.toList) →
    jsEqFields xs ys = true
  | .nil, _, _, _ => rfl
  | .cons k v rest, ys, hyc, h => by
      have hm : (k, v) ∈ ys.toList := h k v (by simp [JsFields.toList])
      have hl := JsFields.lookupOpt_of_mem_clean ys k v hyc hm
      have hcv : v.cleanV = true := JsFields.cleanV_of_mem_toList ys k v hyc hm
      have h1 := jsEq_refl v hcv
      have h2 := jsEqFields_of rest ys hyc
        (fun k' v' hm' => h k' v' (by simp [JsFields.toList, hm']))
      simp [jsEqFields, hl, h1, h2]

end

theorem patchAllEqB_of (m : Model) : ∀ p : JsFields,
    (∀ k v, (k, v) ∈ p.toList → jsEq (m.attributes.get k) v = true) →
    patchAllEqB m p = true := by
  intro p
  induction p with
  | nil => intro _; rfl
  | cons k v rest ih =>
      intro h
      simp only [patchAllEqB, Bool.and_eq_true]
      exact ⟨h k v (by simp [JsFields.toList]),
        ih (fun k' v' hm => h k' v' (by simp [JsFields.toList, hm]))⟩

theorem patchAllEqB_self (m : Model)
    (hc : m.attributes.cleanF = true) :
    patchAllEqB m m.attributes = true := by
  apply patchAllEqB_of
  intro k v hm
  rw [JsFields.get_of_mem_clean m.attributes k v hc hm]
  exact jsEq_refl v (JsFields.cleanV_of_mem_toList m.attributes k v hc hm)

theorem idxOfMatch_isSome_of {α : Type} (p : α → Bool) :
    ∀ (l : List α) (x : α), x ∈ l → p x = true →
    (idxOfMatch p l).isSome = true := by
  intro l
  induction l with
  | nil => intro x h; simp at h
  | cons y rest ih =>
      intro x hx hp
      simp only [idxOfMatch]
      by_cases hy : p y = true
      · rw [if_pos hy]; rfl
      · rw [if_neg hy]
        rcases List.mem_cons.mp hx with rfl | hx'
        · exact absurd hp hy
        · rw [show (Option.map (fun i => i + 1) (idxOfMatch p rest)).isSome
                = (idxOfMatch p rest).isSome by cases idxOfMatch p rest <;> rfl]
          exact ih x hx' hp


theorem modelSet_selfSnap_ca (m : Model) (now : Nat)
    (hca : m.changedAttributes = .nil) (hcl : m.attributes.cleanF = true) :
    (m.set (.mapping m.attributes) false true now).self.changedAttributes
      = .nil := by
  have he := Model.mappingChanges_allEq m.attributes m (patchAllEqB_self m hcl)
  simp only [Model.set, Bool.false_eq_true, if_false, he]
  split <;> exact hca

theorem changeStep_selfSnap (now : Nat) (m : Model) (xs : List JsFields)
    (ci ch : List Model) (uns : Bool)
    (hp : (Model.keyOf m).prim = true)
    (hca : m.changedAttributes = .nil) (hcl : m.attributes.cleanF = true) :
    Collection.changeStep now
      { citems := ci, working := m.attributes :: xs, changed := ch,
        unsorted := uns } m
    = { citems := replaceByKey (Model.keyOf m)
          ((m.set (.mapping m.attributes) false true now).self) ci,
        working := xs, changed := ch, unsorted := uns } := by
  have hpx : jsStrictEq (m.attributes.get m.uniqueField) (Model.keyOf m)
      = true := jsStrictEq_refl_prim _ hp
  have hcaz := modelSet_selfSnap_ca m now hca hcl
  simp only [Collection.changeStep, idxOfMatch, hpx, if_true, consumeAt,
    List.get?, List.take, List.drop, List.nil_append, hcaz, JsFields.length]
  simp


theorem changeFold_selfSnap (now : Nat) : ∀ (l : List Model)
    (ci ch : List Model) (uns : Bool),
    (∀ m ∈ l, (Model.keyOf m).prim = true ∧
       m.changedAttributes = .nil ∧ m.attributes.cleanF = true) →
    ((l.foldl (Collection.changeStep now)
      { citems := ci, working := l.map Model.attributes,
        changed := ch, unsorted := uns }).changed = ch ∧
     (l.foldl (Collection.changeStep now)
      { citems := ci, working := l.map Model.attributes,
        changed := ch, unsorted := uns }).working = []) := by
  intro l
  induction l with
  | nil => intro ci ch uns _; exact ⟨rfl, rfl⟩
  | cons m rest ih =>
      intro ci ch uns h
      obtain ⟨hp, hca, hcl⟩ := h m (List.mem_cons_self m rest)
      rw [List.map_cons, List.foldl_cons,
        changeStep_selfSnap now m (rest.map Model.attributes) ci ch uns hp hca hcl]
      exact ih _ ch uns (fun m' hm' => h m' (List.mem_cons_of_mem m hm'))



/-- The change-collection loop only ever writes `changedAttributes`: every
other field of the record it threads is untouched. -/
theorem Model.mappingChanges_frame (i : Bool) (p : JsFields) :
    ∀ m : Model,
    (Model.mappingChanges m i p).attributes = m.attributes ∧
    (Model.mappingChanges m i p).dirty = m.dirty ∧
    (Model.mappingChanges m i p).modified = m.modified ∧
    (Model.mappingChanges m i p).hasBeenRendered = m.hasBeenRendered ∧
    (Model.mappingChanges m i p).uniqueField = m.uniqueField ∧
    (Model.mappingChanges m i p).extraProps = m.extraProps := by
  induction p with
  | nil => exact fun m => ⟨rfl, rfl, rfl, rfl, rfl, rfl⟩
  | cons k v rest ih =>
      intro m
      simp only [Model.mappingChanges]
      by_cases h :
          jsEq (if i then m.propView k else m.attributes.get k) v = true
      · rw [if_pos h]; exact ih m
      · rw [if_neg h]; exact ih _


theorem beqComm {γ : Type} [BEq γ] [LawfulBEq γ] (x y : γ) :
    (x == y) = (y == x) := by
  by_cases h : x = y
  · subst h; rfl
  · rw [beq_eq_false_iff_ne.mpr h, beq_eq_false_iff_ne.mpr (Ne.symm h)]

theorem jsStrictEq_symm (a b : JsVal) : jsStrictEq a b = jsStrictEq b a := by
  cases a <;> cases b <;> try rfl
  all_goals exact beqComm _ _

/-- `keysDistinctB` as a pairwise statement. -/
theorem keysDistinctB_iff_pairwise (l : List JsVal) :
    keysDistinctB l = true ↔
      l.Pairwise (fun a b => jsStrictEq a b = false) := by
  induction l with
  | nil => simp [keysDistinctB]
  | cons k rest ih =>
      simp only [keysDistinctB, Bool.and_eq_true, List.all_eq_true,
        List.pairwise_cons, ih, Bool.not_eq_true']

theorem insertBy_perm (le : Model → Model → Bool) (x : Model) :
    ∀ l : List Model, (insertBy le x l).Perm (x :: l) := by
  intro l
  induction l with
  | nil => exact List.Perm.refl _
  | cons y ys ih =>
      simp only [insertBy]
      split
      · exact List.Perm.refl _
      · exact (ih.cons y).trans (List.Perm.swap x y ys)

theorem sortItems_perm (le : Model → Model → Bool) :
    ∀ l : List Model, (sortItems le l).Perm l := by
  intro l
  induction l with
  | nil => exact List.Perm.refl _
  | cons x xs ih =>
      have h1 : sortItems le (x :: xs) = insertBy le x (sortItems le xs) := rfl
      rw [h1]
      exact (insertBy_perm le x (sortItems le xs)).trans (ih.cons x)

/-- Deep-merging a source with no `k` key leaves `k` untouched. -/
theorem jqMergeFs_get_unrelated : ∀ (fs tgt : JsFields) (k : String),
    fs.hasKey k = false → (jqMergeFs tgt fs).get k = tgt.get k := by
  intro fs
  induction fs with
  | nil => intro tgt k _; rfl
  | cons k0 v0 rest ih =>
      intro tgt k h
      simp only [JsFields.hasKey, Bool.or_eq_false_iff] at h
      have hne : k0 ≠ k := by
        intro he; subst he; simp at h
      have hval : (jqMergeVal tgt k0 v0).get k = tgt.get k := by
        cases v0 <;>
          simp [jqMergeVal, JsFields.get_set_ne _ _ _ _ hne]
      calc (jqMergeFs (jqMergeVal tgt k0 v0) rest).get k
          = (jqMergeVal tgt k0 v0).get k := ih _ k h.2
        _ = tgt.get k := hval

/-- A clean source's primitive-valued key wins in a deep merge. -/
theorem jqMergeFs_get_prim : ∀ (fs tgt : JsFields) (k : String),
    fs.cleanF = true → (fs.get k).prim = true →
    (jqMergeFs tgt fs).get k = fs.get k := by
  intro fs
  induction fs with
  | nil => intro tgt k _ hp; simp [JsFields.get, JsVal.prim] at hp
  | cons k0 v0 rest ih =>
      intro tgt k hc hp
      obtain ⟨hrk, hcv, hcr⟩ := JsFields.cleanF_cons k0 v0 rest hc
      by_cases he : k0 = k
      · subst he
        have hg : (JsFields.cons k0 v0 rest).get k0 = v0 := by
          simp [JsFields.get]
        rw [hg] at hp ⊢
        have hval : jqMergeVal tgt k0 v0 = tgt.set k0 v0 := by
          cases v0 <;> simp_all [jqMergeVal, JsVal.prim]
        calc (jqMergeFs (jqMergeVal tgt k0 v0) rest).get k0
            = (jqMergeVal tgt k0 v0).get k0 :=
              jqMergeFs_get_unrelated rest _ k0 hrk
          _ = v0 := by rw [hval, JsFields.get_set_self]
      · have hg : (JsFields.cons k0 v0 rest).get k = rest.get k := by
          simp [JsFields.get, beq_iff_eq, he]
        rw [hg] at hp ⊢
        exact ih _ k hcr hp

theorem JsFields.hasKey_of_get_prim (fs : JsFields) (k : String)
    (h : (fs.get k).prim = true) : fs.hasKey k = true := by
  by_cases hh : fs.hasKey k = true
  · exact hh
  · rw [JsFields.get_undef_of_not_hasKey fs k (by
      cases hx : fs.hasKey k
      · rfl
      · exact absurd hx hh)] at h
    simp [JsVal.prim] at h


/-- With at most one matching element (pairwise) and at least one,
`splice` at the `indexOf` position removes exactly the matching element:
the remainder is the filter of non-matches. -/
theorem splice_first_match {α : Type} (p : α → Bool) : ∀ l : List α,
    l.Pairwise (fun a b => ¬(p a = true ∧ p b = true)) →
    (idxOfMatch p l).isSome = true →
    ∃ x, p x = true ∧ x ∈ l ∧
      splice1 l (idxOfMatch p l) = (l.filter (fun y => !(p y)), [x]) := by
  intro l
  induction l with
  | nil => intro _ h; simp [idxOfMatch] at h
  | cons y ys ih =>
      intro hpw hsome
      rw [List.pairwise_cons] at hpw
      by_cases hy : p y = true
      · refine ⟨y, hy, List.mem_cons_self y ys, ?_⟩
        have hrest : ys.filter (fun z => !(p z)) = ys := by
          rw [List.filter_eq_self]
          intro z hz
          simp only [Bool.not_eq_true']
          by_cases hz' : p z = true
          · exact absurd ⟨hy, hz'⟩ (hpw.1 z hz)
          · exact Bool.not_eq_true _ |>.mp hz'
        simp [idxOfMatch, hy, splice1, List.filter, hrest]
      · have hys : (idxOfMatch p ys).isSome = true := by
          simp only [idxOfMatch, hy, if_false] at hsome
          cases hi : idxOfMatch p ys
          · rw [hi] at hsome; simp at hsome
          · rfl
        obtain ⟨x, hx1, hx2, hx3⟩ := ih hpw.2 hys
        refine ⟨x, hx1, List.mem_cons_of_mem y hx2, ?_⟩
        cases hi : idxOfMatch p ys with
        | none => rw [hi] at hys; simp at hys
        | some i =>
            rw [hi] at hx3
            have hidx : idxOfMatch p (y :: ys) = some (i + 1) := by
              simp [idxOfMatch, hy, hi]
            rw [hidx]
            simp only [splice1] at hx3 ⊢
            obtain ⟨h31, h32⟩ := Prod.mk.injEq _ _ _ _ |>.mp hx3
            simp [List.take_succ_cons, List.drop_succ_cons, h31, h32,
              List.filter, hy]

/-- The `consumeAt` counterpart of `splice_first_match`. -/
theorem consume_first_match {α : Type} (p : α → Bool) : ∀ l : List α,
    l.Pairwise (fun a b => ¬(p a = true ∧ p b = true)) →
    (idxOfMatch p l).isSome = true →
    ∃ x, p x = true ∧ x ∈ l ∧
      consumeAt l (idxOfMatch p l) = (some x, l.filter (fun y => !(p y))) := by
  intro l
  induction l with
  | nil => intro _ h; simp [idxOfMatch] at h
  | cons y ys ih =>
      intro hpw hsome
      rw [List.pairwise_cons] at hpw
      by_cases hy : p y = true
      · refine ⟨y, hy, List.mem_cons_self y ys, ?_⟩
        have hrest : ys.filter (fun z => !(p z)) = ys := by
          rw [List.filter_eq_self]
          intro z hz
          simp only [Bool.not_eq_true']
          by_cases hz' : p z = true
          · exact absurd ⟨hy, hz'⟩ (hpw.1 z hz)
          · exact Bool.not_eq_true _ |>.mp hz'
        simp [idxOfMatch, hy, consumeAt, List.filter, hrest]
      · have hys : (idxOfMatch p ys).isSome = true := by
          simp only [idxOfMatch, hy, if_false] at hsome
          cases hi : idxOfMatch p ys
          · rw [hi] at hsome; simp at hsome
          · rfl
        obtain ⟨x, hx1, hx2, hx3⟩ := ih hpw.2 hys
        refine ⟨x, hx1, List.mem_cons_of_mem y hx2, ?_⟩
        cases hi : idxOfMatch p ys with
        | none => rw [hi] at hys; simp at hys
        | some i =>
            rw [hi] at hx3
            have hidx : idxOfMatch p (y :: ys) = some (i + 1) := by
              simp [idxOfMatch, hy, hi]
            rw [hidx]
            simp only [consumeAt] at hx3 ⊢
            obtain ⟨h31, h32⟩ := Prod.mk.injEq _ _ _ _ |>.mp hx3
            rw [List.get?_eq_getElem?] at h31
            simp [List.take_succ_cons, List.drop_succ_cons, h31, h32,
              List.filter, hy]

/-- Keys and regularity of the models `add`'s construction loop builds
from a well-formed payload: explicit truthy primitive ids are kept
verbatim (no auto-assignment happens). -/
theorem buildModels_keys (templ : JsFields) (now : Nat) :
    ∀ (p : List JsFields) (uid : Nat),
    (∀ fs ∈ p, fs.cleanF = true ∧ (fs.get "id").prim = true ∧
      (fs.get "id").truthy = true) →
    ((Collection.buildModels templ uid now p).1.map Model.keyOf
        = p.map (fun fs => fs.get "id") ∧
     ∀ mm ∈ (Collection.buildModels templ uid now p).1,
       mm.uniqueField = "id" ∧ (Model.keyOf mm).prim = true ∧
       (Model.keyOf mm).truthy = true) := by
  intro p
  induction p with
  | nil =>
      intro uid _
      exact ⟨rfl, fun mm hm => by simp [Collection.buildModels] at hm⟩
  | cons fs rest ih =>
      intro uid h
      obtain ⟨hc, hp, ht⟩ := h fs (List.mem_cons_self fs rest)
      have hg : (jqExtend2 templ fs).get "id" = fs.get "id" :=
        jqMergeFs_get_prim fs _ "id" hc hp
      have hneed : Model.needsId (jqExtend2 templ fs) = false := by
        simp [Model.needsId, JsFields.hasKey_of_get_prim _ _ (hg ▸ hp),
          hg, ht]
      have hkey : Model.keyOf (Model.make (jqExtend2 templ fs) true uid now).1
          = fs.get "id" := by
        simp [Model.make, Model.keyOf, hneed, hg]
      have huf : (Model.make (jqExtend2 templ fs) true uid now).1.uniqueField
          = "id" := rfl
      have hrest := ih (Model.make (jqExtend2 templ fs) true uid now).2
        (fun fs' hm => h fs' (List.mem_cons_of_mem fs hm))
      constructor
      · simp only [Collection.buildModels, List.map_cons]
        rw [hkey, hrest.1]
      · intro mm hm
        simp only [Collection.buildModels, List.mem_cons] at hm
        rcases hm with hm | hm
        · subst hm
          exact ⟨huf, hkey ▸ hp, hkey ▸ ht⟩
        · exact hrest.2 mm hm

/-- Replacing the first key-match with a model of the same key leaves the
key sequence unchanged, and every resulting element is an old one or the
replacement. -/
theorem replaceByKey_spec (kv : JsVal) (nm : Model) (hk : Model.keyOf nm = kv) :
    ∀ l : List Model, (∀ x ∈ l, (Model.keyOf x).prim = true) →
    ((replaceByKey kv nm l).map Model.keyOf = l.map Model.keyOf ∧
     ∀ y ∈ replaceByKey kv nm l, y ∈ l ∨ y = nm) := by
  intro l
  induction l with
  | nil => exact fun _ => ⟨rfl, fun y hy => by simp [replaceByKey] at hy⟩
  | cons m rest ih =>
      intro hprim
      by_cases hm : jsStrictEq (Model.keyOf m) kv = true
      · have hkeq : Model.keyOf m = kv :=
          jsStrictEq_prim_eq _ _ (hprim m (List.mem_cons_self m rest)) hm
        have hred : replaceByKey kv nm (m :: rest) = nm :: rest := by
          simp only [replaceByKey]
          rw [if_pos hm]
        constructor
        · rw [hred, List.map_cons, List.map_cons, hk, hkeq]
        · intro y hy
          rw [hred, List.mem_cons] at hy
          rcases hy with hy | hy
          · exact Or.inr hy
          · exact Or.inl (List.mem_cons_of_mem m hy)
      · have hrest := ih (fun x hx => hprim x (List.mem_cons_of_mem m hx))
        have hred : replaceByKey kv nm (m :: rest)
            = m :: replaceByKey kv nm rest := by
          simp only [replaceByKey]
          rw [if_neg hm]
        constructor
        · rw [hred, List.map_cons, List.map_cons, hrest.1]
        · intro y hy
          rw [hred, List.mem_cons] at hy
          rcases hy with hy | hy
          · exact Or.inl (by simp [hy])
          · rcases hrest.2 y hy with h | h
            · exact Or.inl (List.mem_cons_of_mem m h)
            · exact Or.inr h


theorem keyInB_nil (kv : JsVal) : keyInB kv [] = false := rfl

theorem keyInB_cons (kv q : JsVal) (rest : List JsVal) :
    keyInB kv (q :: rest) = (jsStrictEq kv q || keyInB kv rest) := rfl

/-- Pairwise-distinct primitive keys make "matches key `kv`" hold for at
most one element. -/
theorem atMostOne_of_distinct (l : List Model) (kv : JsVal)
    (hprim : ∀ x ∈ l, (Model.keyOf x).prim = true)
    (hdist : (l.map Model.keyOf).Pairwise (fun a b => jsStrictEq a b = false)) :
    l.Pairwise (fun a b => ¬(jsStrictEq (Model.keyOf a) kv = true ∧
      jsStrictEq (Model.keyOf b) kv = true)) := by
  have hd := (List.pairwise_map).mp hdist
  refine hd.imp_of_mem ?_
  intro a b ha hb hab ⟨hpa, hpb⟩
  have hea : Model.keyOf a = kv := jsStrictEq_prim_eq _ _ (hprim a ha) hpa
  have heb : Model.keyOf b = kv := jsStrictEq_prim_eq _ _ (hprim b hb) hpb
  rw [hea, heb] at hab
  rw [jsStrictEq_refl_prim kv (hea ▸ hprim a ha)] at hab
  simp at hab

/-- `Collection.remove` by model, when the key is present and keys are
pairwise distinct: the result's items are the non-matching ones. -/
theorem remove_model_items (cur : Collection) (m : Model)
    (hprim : ∀ x ∈ cur.items, (Model.keyOf x).prim = true)
    (hdist : (cur.items.map Model.keyOf).Pairwise
      (fun a b => jsStrictEq a b = false))
    (hpres : ∃ x ∈ cur.items, Model.keyOf x = Model.keyOf m) :
    (Collection.remove cur (.modelR m) true).coll.items
      = cur.items.filter
          (fun x => !(jsStrictEq (Model.keyOf x) (Model.keyOf m))) := by
  obtain ⟨x0, hx0, hk0⟩ := hpres
  have hsome : (idxOfMatch
      (fun x => jsStrictEq (Model.keyOf x) (Model.keyOf m))
      cur.items).isSome = true := by
    apply idxOfMatch_isSome_of _ _ x0 hx0
    rw [hk0]
    exact jsStrictEq_refl_prim _ (hk0 ▸ hprim x0 hx0)
  have hpw := atMostOne_of_distinct cur.items (Model.keyOf m) hprim hdist
  obtain ⟨x, _, _, hx3⟩ := splice_first_match _ cur.items hpw hsome
  simp only [Collection.remove]
  rw [hx3]


/-- The whole remove phase: folding `removeStep` over a pairwise-distinct
list of records whose keys are present removes exactly the records with
those keys — the surviving items are the filter of the rest. -/
theorem removeFold_items : ∀ (rem : List Model) (cur : Collection)
    (accR : List (List Model)) (accE : List CEvent),
    (∀ x ∈ cur.items, (Model.keyOf x).prim = true) →
    ((cur.items.map Model.keyOf).Pairwise
      (fun a b => jsStrictEq a b = false)) →
    (∀ m ∈ rem, (Model.keyOf m).prim = true) →
    ((rem.map Model.keyOf).Pairwise (fun a b => jsStrictEq a b = false)) →
    (∀ m ∈ rem, ∃ x ∈ cur.items, Model.keyOf x = Model.keyOf m) →
    (rem.foldl Collection.removeStep (cur, accR, accE)).1.items
      = cur.items.filter
          (fun x => !(keyInB (Model.keyOf x) (rem.map Model.keyOf))) := by
  intro rem
  induction rem with
  | nil =>
      intro cur accR accE _ _ _ _ _
      simp [keyInB]
  | cons m rest ih =>
      intro cur accR accE hprim hdist hremp hremd hpres
      rw [List.foldl_cons]
      have hitems := remove_model_items cur m hprim hdist
        (hpres m (List.mem_cons_self m rest))
      have hstep : (Collection.removeStep (cur, accR, accE) m).1
          = (Collection.remove cur (.modelR m) true).coll := rfl
      have hd1 : ∀ b ∈ rest, jsStrictEq (Model.keyOf m) (Model.keyOf b)
          = false := by
        have := (List.pairwise_map.mp hremd)
        rw [List.pairwise_cons] at this
        exact fun b hb => this.1 b hb
      -- hypotheses for the tail, on the filtered collection
      have hsub : ((Collection.remove cur (.modelR m) true).coll.items).Sublist
          cur.items := by
        rw [hitems]; exact List.filter_sublist _
      have hprim' : ∀ x ∈ (Collection.remove cur (.modelR m) true).coll.items,
          (Model.keyOf x).prim = true :=
        fun x hx => hprim x (hsub.mem hx)
      have hdist' : (((Collection.remove cur (.modelR m) true).coll.items).map
          Model.keyOf).Pairwise (fun a b => jsStrictEq a b = false) :=
        (hdist.sublist (hsub.map Model.keyOf))
      have hpres' : ∀ m' ∈ rest,
          ∃ x ∈ (Collection.remove cur (.modelR m) true).coll.items,
            Model.keyOf x = Model.keyOf m' := by
        intro m' hm'
        obtain ⟨x, hx, hk⟩ := hpres m' (List.mem_cons_of_mem m hm')
        refine ⟨x, ?_, hk⟩
        rw [hitems, List.mem_filter]
        refine ⟨hx, ?_⟩
        rw [hk]
        have h1 : jsStrictEq (Model.keyOf m') (Model.keyOf m) = false := by
          rw [jsStrictEq_symm]
          exact hd1 m' hm'
        simp [h1]
      have hrec := ih (Collection.remove cur (.modelR m) true).coll
        (accR ++ [(Collection.remove cur (.modelR m) true).removedArr])
        (accE ++ (Collection.remove cur (.modelR m) true).events)
        hprim' hdist'
        (fun m' hm' => hremp m' (List.mem_cons_of_mem m hm'))
        ((List.pairwise_cons.mp hremd).2)
        hpres'
      rw [show Collection.removeStep (cur, accR, accE) m
          = ((Collection.remove cur (.modelR m) true).coll,
             accR ++ [(Collection.remove cur (.modelR m) true).removedArr],
             accE ++ (Collection.remove cur (.modelR m) true).events) from rfl]
      rw [hrec, hitems, List.filter_filter]
      apply List.filter_congr
      intro x _
      rw [List.map_cons, keyInB_cons, Bool.not_or]
      exact Bool.and_comm _ _


/-- The external mapping `Model.set` a reconciliation applies preserves
key and unique field: the matched element's primitive id overwrites the
key attribute with the value it already had. -/
theorem modelSet_key (old : Model) (ni : JsFields) (now : Nat)
    (hni : ni.cleanF = true) (hprim : (ni.get "id").prim = true)
    (hmatch : jsStrictEq (ni.get "id") (Model.keyOf old) = true)
    (huf : old.uniqueField = "id") :
    Model.keyOf (old.set (.mapping ni) false true now).self
      = Model.keyOf old ∧
    (old.set (.mapping ni) false true now).self.uniqueField = "id" := by
  have hfr := Model.mappingChanges_frame false ni old
  have heq : ni.get "id" = Model.keyOf old :=
    jsStrictEq_prim_eq _ _ hprim hmatch
  have hattr : (old.set (.mapping ni) false true now).self.attributes
      = jqExtend2 (old.mappingChanges false ni).attributes ni := by
    simp only [Model.set, Bool.false_eq_true, if_false]
    split <;> rfl
  have hufs : (old.set (.mapping ni) false true now).self.uniqueField
      = old.uniqueField := by
    simp only [Model.set, Bool.false_eq_true, if_false]
    split <;> exact hfr.2.2.2.2.1
  constructor
  · rw [Model.keyOf, hattr, hufs, huf]
    rw [show jqExtend2 (old.mappingChanges false ni).attributes ni
        = jqMergeFs (jqMergeFs .nil (old.mappingChanges false ni).attributes)
            ni from rfl]
    rw [jqMergeFs_get_prim ni _ "id" hni hprim, heq, Model.keyOf, huf]
  · rw [hufs, huf]

/-- One change-phase step, decomposed: the consumed element is the unique
match, the working list shrinks to the non-matches, and the write-back
replaces the first item with the record's key. -/
theorem changeStep_decomp (now : Nat) (st : ChangeSt) (old : Model)
    (hwpw : st.working.Pairwise (fun a b =>
      ¬(jsStrictEq (a.get old.uniqueField) (Model.keyOf old) = true ∧
        jsStrictEq (b.get old.uniqueField) (Model.keyOf old) = true)))
    (hsome : (idxOfMatch
      (fun x => jsStrictEq (x.get old.uniqueField) (Model.keyOf old))
      st.working).isSome = true) :
    ∃ ni, ni ∈ st.working ∧
      jsStrictEq (ni.get old.uniqueField) (Model.keyOf old) = true ∧
      (Collection.changeStep now st old).working
        = st.working.filter (fun fs =>
            !(jsStrictEq (fs.get old.uniqueField) (Model.keyOf old))) ∧
      (Collection.changeStep now st old).citems
        = replaceByKey (Model.keyOf old)
            ((old.set (.mapping ni) false true now).self) st.citems := by
  obtain ⟨ni, hp, hmem, hcons⟩ := consume_first_match _ st.working hwpw hsome
  refine ⟨ni, hmem, hp, ?_, ?_⟩
  · simp only [Collection.changeStep, hcons]
    split <;> rfl
  · simp only [Collection.changeStep, hcons]
    split <;> rfl


/-- The whole change phase of `set`, under pairwise-distinct primitive
truthy keys on both sides: the working snapshot shrinks to exactly the
elements whose id matches no processed record, the written-back items
keep the key sequence, and every resulting item is regular (default
unique field, primitive truthy key). -/
theorem changeFold_general (now : Nat) : ∀ (l : List Model) (st : ChangeSt),
    (∀ m ∈ l, m.uniqueField = "id" ∧ (Model.keyOf m).prim = true ∧
      (Model.keyOf m).truthy = true) →
    ((l.map Model.keyOf).Pairwise (fun a b => jsStrictEq a b = false)) →
    (∀ fs ∈ st.working, fs.cleanF = true ∧ (fs.get "id").prim = true ∧
      (fs.get "id").truthy = true) →
    ((st.working.map (fun fs => fs.get "id")).Pairwise
      (fun a b => jsStrictEq a b = false)) →
    (∀ m ∈ l, keyInB (Model.keyOf m)
      (st.working.map (fun fs => fs.get "id")) = true) →
    (∀ x ∈ st.citems, x.uniqueField = "id" ∧ (Model.keyOf x).prim = true ∧
      (Model.keyOf x).truthy = true) →
    ((l.foldl (Collection.changeStep now) st).working
        = st.working.filter (fun fs =>
            !(keyInB (fs.get "id") (l.map Model.keyOf))) ∧
     (l.foldl (Collection.changeStep now) st).citems.map Model.keyOf
        = st.citems.map Model.keyOf ∧
     (∀ y ∈ (l.foldl (Collection.changeStep now) st).citems,
        y.uniqueField = "id" ∧ (Model.keyOf y).prim = true ∧
        (Model.keyOf y).truthy = true)) := by
  intro l
  induction l with
  | nil =>
      intro st _ _ _ _ _ hci
      refine ⟨by simp [keyInB], rfl, hci⟩
  | cons old rest ih =>
      intro st hl hld hwf hwd hin hci
      obtain ⟨huf, hop, hot⟩ := hl old (List.mem_cons_self old rest)
      -- the at-most-one-match hypothesis for the step
      have hwpw : st.working.Pairwise (fun a b =>
          ¬(jsStrictEq (a.get old.uniqueField) (Model.keyOf old) = true ∧
            jsStrictEq (b.get old.uniqueField) (Model.keyOf old) = true)) := by
        rw [huf]
        have hd := (List.pairwise_map).mp hwd
        refine hd.imp_of_mem ?_
        intro a b ha hb hab ⟨hpa, hpb⟩
        have hea : a.get "id" = Model.keyOf old :=
          jsStrictEq_prim_eq _ _ (hwf a ha).2.1 hpa
        have heb : b.get "id" = Model.keyOf old :=
          jsStrictEq_prim_eq _ _ (hwf b hb).2.1 hpb
        rw [hea, heb] at hab
        rw [jsStrictEq_refl_prim _ (hea ▸ (hwf a ha).2.1)] at hab
        simp at hab
      -- the match exists
      have hsome : (idxOfMatch
          (fun x => jsStrictEq (x.get old.uniqueField) (Model.keyOf old))
          st.working).isSome = true := by
        have h0 := hin old (List.mem_cons_self old rest)
        rw [show keyInB (Model.keyOf old)
            (st.working.map (fun fs => fs.get "id"))
            = (st.working.map (fun fs => fs.get "id")).any
              (fun q => jsStrictEq (Model.keyOf old) q) from rfl] at h0
        obtain ⟨q, hq, hsq⟩ := List.any_eq_true.mp h0
        obtain ⟨fs, hfs, hq'⟩ := List.mem_map.mp hq
        apply idxOfMatch_isSome_of _ _ fs hfs
        rw [huf, hq']
        rw [jsStrictEq_symm]
        exact hsq
      obtain ⟨ni, hnimem, hnip, hwork, hcit⟩ :=
        changeStep_decomp now st old hwpw hsome
      obtain ⟨hnic, hniprim, hnit⟩ := hwf ni hnimem
      have hnip' : jsStrictEq (ni.get "id") (Model.keyOf old) = true := by
        rw [huf] at hnip; exact hnip
      have hkey := modelSet_key old ni now hnic hniprim hnip' huf
      have hrep := replaceByKey_spec (Model.keyOf old)
        ((old.set (.mapping ni) false true now).self) hkey.1 st.citems
        (fun x hx => (hci x hx).2.1)
      -- tail hypotheses
      have hld' := (List.pairwise_cons.mp hld)
      have hwork' : (Collection.changeStep now st old).working
          = st.working.filter
              (fun fs => !(jsStrictEq (fs.get "id") (Model.keyOf old))) := by
        rw [hwork]
        apply List.filter_congr
        intro fs _
        rw [huf]
      have hsubw : ((Collection.changeStep now st old).working).Sublist
          st.working := by
        rw [hwork']; exact List.filter_sublist _
      have hwf' : ∀ fs ∈ (Collection.changeStep now st old).working,
          fs.cleanF = true ∧ (fs.get "id").prim = true ∧
          (fs.get "id").truthy = true :=
        fun fs hfs => hwf fs (hsubw.mem hfs)
      have hwd' : (((Collection.changeStep now st old).working).map
          (fun fs => fs.get "id")).Pairwise
            (fun a b => jsStrictEq a b = false) :=
        hwd.sublist (hsubw.map _)
      have hin' : ∀ m ∈ rest, keyInB (Model.keyOf m)
          (((Collection.changeStep now st old).working).map
            (fun fs => fs.get "id")) = true := by
        intro m hm
        have h0 := hin m (List.mem_cons_of_mem old hm)
        obtain ⟨q, hq, hsq⟩ := List.any_eq_true.mp h0
        obtain ⟨fs, hfs, hq'⟩ := List.mem_map.mp hq
        subst hq'
        have hfs' : fs ∈ (Collection.changeStep now st old).working := by
          rw [hwork', List.mem_filter]
          refine ⟨hfs, ?_⟩
          simp only [Bool.not_eq_true']
          cases hx : jsStrictEq (fs.get "id") (Model.keyOf old)
          · rfl
          · exfalso
            have he1 : fs.get "id" = Model.keyOf old :=
              jsStrictEq_prim_eq _ _ (hwf fs hfs).2.1 hx
            have he2 : Model.keyOf m = fs.get "id" :=
              jsStrictEq_prim_eq _ _ (hl m (List.mem_cons_of_mem old hm)).2.1 hsq
            have h3 := hld'.1 (Model.keyOf m) (List.mem_map_of_mem _ hm)
            rw [he2, he1] at h3
            rw [jsStrictEq_refl_prim _ (he1 ▸ (hwf fs hfs).2.1)] at h3
            simp at h3
        exact List.any_eq_true.mpr
          ⟨fs.get "id", List.mem_map_of_mem _ hfs', hsq⟩
      have hci' : ∀ x ∈ (Collection.changeStep now st old).citems,
          x.uniqueField = "id" ∧ (Model.keyOf x).prim = true ∧
          (Model.keyOf x).truthy = true := by
        intro x hx
        rw [hcit] at hx
        rcases hrep.2 x hx with h | h
        · exact hci x h
        · subst h
          exact ⟨hkey.2, hkey.1 ▸ hop, hkey.1 ▸ hot⟩
      have hrec := ih (Collection.changeStep now st old)
        (fun m hm => hl m (List.mem_cons_of_mem old hm)) hld'.2
        hwf' hwd' hin' hci'
      rw [List.foldl_cons]
      refine ⟨?_, ?_, hrec.2.2⟩
      · rw [hrec.1, hwork', List.filter_filter]
        apply List.filter_congr
        intro fs _
        rw [List.map_cons, keyInB_cons, Bool.not_or]
        exact Bool.and_comm _ _
      · rw [hrec.2.1, hcit, hrep.1]


theorem removeFold_frame : ∀ (rem : List Model)
    (st0 : Collection × List (List Model) × List CEvent),
    (rem.foldl Collection.removeStep st0).1.templAttrs = st0.1.templAttrs ∧
    (rem.foldl Collection.removeStep st0).1.uidCounter = st0.1.uidCounter := by
  intro rem
  induction rem with
  | nil => intro st0; exact ⟨rfl, rfl⟩
  | cons m rest ih =>
      intro st0
      rw [List.foldl_cons]
      exact ih (Collection.removeStep st0 m)

theorem add_items_noSort (cc : Collection) (args : List JsFields)
    (now : Nat) :
    (Collection.add cc args true true now).coll.items
      = cc.items ++ (Collection.buildModels cc.templAttrs cc.uidCounter
          now args).1 := by
  simp only [Collection.add]
  split <;> rfl

theorem idxOfMatch_exists {α : Type} (p : α → Bool) : ∀ l : List α,
    (idxOfMatch p l).isSome = true → ∃ x ∈ l, p x = true := by
  intro l
  induction l with
  | nil => intro h; simp [idxOfMatch] at h
  | cons y ys ih =>
      intro h
      by_cases hy : p y = true
      · exact ⟨y, List.mem_cons_self y ys, hy⟩
      · simp only [idxOfMatch, hy, if_false] at h
        have h' : (idxOfMatch p ys).isSome = true := by
          cases hi : idxOfMatch p ys
          · rw [hi] at h; simp at h
          · rfl
        obtain ⟨x, hx, hp⟩ := ih h'
        exact ⟨x, List.mem_cons_of_mem y hx, hp⟩


theorem setMatched_congr (p : List JsFields) (x y : Model)
    (hu : x.uniqueField = y.uniqueField) (hk : Model.keyOf x = Model.keyOf y) :
    Collection.setMatched p x = Collection.setMatched p y := by
  simp [Collection.setMatched, hu, hk]

theorem invB_of_items (cX : Collection) (l : List Model)
    (hitems : cX.items = l)
    (hall : ∀ m ∈ l, m.uniqueField = "id" ∧ (Model.keyOf m).prim = true ∧
      (Model.keyOf m).truthy = true)
    (hdl : (l.map Model.keyOf).Pairwise (fun a b => jsStrictEq a b = false)) :
    invB cX = true := by
  simp only [invB, hitems, Bool.and_eq_true, List.all_eq_true]
  constructor
  · intro m hm
    obtain ⟨h1, h2, h3⟩ := hall m hm
    simp [h1, h2, h3]
  · exact (keysDistinctB_iff_pairwise _).mpr hdl

/-- `set` with a well-formed snapshot preserves the at-most-one-per-key
invariant together with key regularity. -/
theorem ite_coll_items {P : Prop} [Decidable P] (r1 r2 : SetRes)
    (L : List Model) (h1 : r1.coll.items = L) (h2 : r2.coll.items = L) :
    (if P then r1 else r2).coll.items = L := by
  by_cases h : P
  · rw [if_pos h]; exact h1
  · rw [if_neg h]; exact h2

theorem setPres (c : Collection) (p : List JsFields) (silent : Bool)
    (now : Nat) (hinv : invB c = true) (hp : payloadOkB p = true) :
    invB (c.set (.arr p) silent now).coll = true := by
  have hreg : ∀ m ∈ c.items, m.uniqueField = "id" ∧
      (Model.keyOf m).prim = true ∧ (Model.keyOf m).truthy = true := by
    intro m hm
    have hx := (List.all_eq_true.mp
      ((Bool.and_eq_true _ _ |>.mp hinv).1)) m hm
    simp only [Bool.and_eq_true, beq_iff_eq] at hx
    exact ⟨hx.1.1, hx.1.2, hx.2⟩
  have hdist : (c.items.map Model.keyOf).Pairwise
      (fun a b => jsStrictEq a b = false) :=
    (keysDistinctB_iff_pairwise _).mp (Bool.and_eq_true _ _ |>.mp hinv).2
  have hpw : ∀ fs ∈ p, fs.cleanF = true ∧ (fs.get "id").prim = true ∧
      (fs.get "id").truthy = true := by
    intro fs hfs
    have hx := (List.all_eq_true.mp
      ((Bool.and_eq_true _ _ |>.mp hp).1)) fs hfs
    simp only [Bool.and_eq_true] at hx
    exact ⟨hx.1.1, hx.1.2, hx.2⟩
  have hpd : (p.map (fun fs => fs.get "id")).Pairwise
      (fun a b => jsStrictEq a b = false) :=
    (keysDistinctB_iff_pairwise _).mp (Bool.and_eq_true _ _ |>.mp hp).2
  simp only [Collection.set, Collection.sortC]
  set TBR := c.items.filter (fun m => !(Collection.setMatched p m))
    with hTBR
  set TBC := c.items.filter (Collection.setMatched p) with hTBC
  set C0 := if TBR.isEmpty = true then c else { c with isSorted := false }
    with hC0
  set RMST := TBR.foldl Collection.removeStep (C0, [], []) with hRMST
  set CST := TBC.foldl (Collection.changeStep now)
      { citems := RMST.1.items, working := p, changed := [],
        unsorted := false } with hCST
  have hC0items : C0.items = c.items := by rw [hC0]; split <;> rfl
  have hTBRsub : TBR.Sublist c.items := by
    rw [hTBR]; exact List.filter_sublist _
  have hTBCsub : TBC.Sublist c.items := by
    rw [hTBC]; exact List.filter_sublist _
  -- remove phase result
  have hrm : RMST.1.items = C0.items.filter
      (fun x => !(keyInB (Model.keyOf x) (TBR.map Model.keyOf))) := by
    rw [hRMST]
    apply removeFold_items TBR C0 [] []
    · intro x hx; rw [hC0items] at hx; exact (hreg x hx).2.1
    · rw [hC0items]; exact hdist
    · intro m hm; exact (hreg m (hTBRsub.mem hm)).2.1
    · exact hdist.sublist (hTBRsub.map _)
    · intro m hm; rw [hC0items]; exact ⟨m, hTBRsub.mem hm, rfl⟩
  -- the survivors are exactly the matched records
  have hRMTBC : RMST.1.items = TBC := by
    rw [hrm, hC0items, hTBC]
    apply List.filter_congr
    intro x hx
    by_cases hmx : Collection.setMatched p x = true
    · rw [hmx]
      simp only [Bool.not_eq_true']
      cases hq : keyInB (Model.keyOf x) (TBR.map Model.keyOf)
      · rfl
      · exfalso
        obtain ⟨q, hq1, hq2⟩ := List.any_eq_true.mp hq
        obtain ⟨y, hy, rfl⟩ := List.mem_map.mp hq1
        have hy' := List.mem_filter.mp (hTBR ▸ hy)
        have hkeq : Model.keyOf x = Model.keyOf y :=
          jsStrictEq_prim_eq _ _ (hreg x hx).2.1 hq2
        have hcong := setMatched_congr p x y
          ((hreg x hx).1.trans (hreg y (hTBRsub.mem hy)).1.symm) hkeq
        rw [hmx] at hcong
        rw [← hcong] at hy'
        simp at hy'
    · have hmx' : Collection.setMatched p x = false :=
        Bool.not_eq_true _ |>.mp hmx
      rw [hmx']
      have hxTBR : x ∈ TBR := by
        rw [hTBR, List.mem_filter]
        exact ⟨hx, by simp [hmx']⟩
      have : keyInB (Model.keyOf x) (TBR.map Model.keyOf) = true :=
        List.any_eq_true.mpr ⟨Model.keyOf x,
          List.mem_map_of_mem _ hxTBR,
          jsStrictEq_refl_prim _ (hreg x hx).2.1⟩
      simp [this]
  have hrmsub : RMST.1.items.Sublist c.items := by
    rw [hRMTBC]; exact hTBCsub
  -- change phase
  have hcfold := changeFold_general now TBC
      { citems := RMST.1.items, working := p, changed := [],
        unsorted := false }
      (fun m hm => hreg m (hTBCsub.mem hm))
      (hdist.sublist (hTBCsub.map _))
      hpw hpd
      (by
        intro m hm
        have hm' := List.mem_filter.mp (hTBC ▸ hm)
        obtain ⟨fs, hfs, hmatch⟩ :=
          idxOfMatch_exists _ p hm'.2
        apply List.any_eq_true.mpr
        refine ⟨fs.get "id", List.mem_map_of_mem _ hfs, ?_⟩
        rw [jsStrictEq_symm]
        rw [(hreg m (hTBCsub.mem hm)).1] at hmatch
        exact hmatch)
      (fun x hx => hreg x (hrmsub.mem hx))
  rw [← hCST] at hcfold
  have hwork : CST.working = p.filter
      (fun fs => !(keyInB (fs.get "id") (TBC.map Model.keyOf))) := hcfold.1
  have hcmap : CST.citems.map Model.keyOf = RMST.1.items.map Model.keyOf :=
    hcfold.2.1
  have hcreg : ∀ y ∈ CST.citems, y.uniqueField = "id" ∧
      (Model.keyOf y).prim = true ∧ (Model.keyOf y).truthy = true :=
    hcfold.2.2
  have hwsub : CST.working.Sublist p := by
    rw [hwork]; exact List.filter_sublist _
  -- combined validity of the appended-then-sorted items
  have hsym : Symmetric (fun a b : JsVal => jsStrictEq a b = false) := by
    intro a b hab; rw [jsStrictEq_symm]; exact hab
  have hsv : ∀ NEW : List Model,
      NEW.map Model.keyOf = CST.working.map (fun fs => fs.get "id") →
      (∀ mm ∈ NEW, mm.uniqueField = "id" ∧ (Model.keyOf mm).prim = true ∧
        (Model.keyOf mm).truthy = true) →
      ((∀ y ∈ sortItems defaultKeepsBefore (CST.citems ++ NEW),
          y.uniqueField = "id" ∧ (Model.keyOf y).prim = true ∧
          (Model.keyOf y).truthy = true) ∧
       (((sortItems defaultKeepsBefore (CST.citems ++ NEW)).map
          Model.keyOf).Pairwise (fun a b => jsStrictEq a b = false))) := by
    intro NEW hmapN hregN
    have hperm := sortItems_perm defaultKeepsBefore (CST.citems ++ NEW)
    constructor
    · intro y hy
      rcases List.mem_append.mp (hperm.mem_iff.mp hy) with h | h
      · exact hcreg y h
      · exact hregN y h
    · have hpiff := List.Perm.pairwise_iff @hsym (hperm.map Model.keyOf)
      rw [hpiff, List.map_append, List.pairwise_append]
      refine ⟨?_, ?_, ?_⟩
      · rw [hcmap, hRMTBC]
        exact hdist.sublist (hTBCsub.map _)
      · rw [hmapN]
        exact hpd.sublist (hwsub.map _)
      · intro a ha b hb
        rw [hcmap, hRMTBC] at ha
        rw [hmapN] at hb
        obtain ⟨fs, hfs, rfl⟩ := List.mem_map.mp hb
        rw [hwork] at hfs
        have hcond := (List.mem_filter.mp hfs).2
        have hKin : keyInB (fs.get "id") (TBC.map Model.keyOf) = false := by
          simpa using hcond
        have h5 : jsStrictEq (fs.get "id") a = false := by
          cases hx : jsStrictEq (fs.get "id") a
          · rfl
          · exfalso
            have hany : keyInB (fs.get "id") (TBC.map Model.keyOf)
                = true := List.any_eq_true.mpr ⟨a, ha, hx⟩
            rw [hany] at hKin
            exact absurd hKin (by simp)
        rw [jsStrictEq_symm]; exact h5
  -- case split on whether anything is left to add
  by_cases hwe : CST.working.isEmpty = true
  · rw [if_pos hwe]
    have hwnil : CST.working = [] := List.isEmpty_iff.mp hwe
    have hmain := hsv [] (by rw [hwnil]; rfl) (fun mm hm => by simp at hm)
    rw [List.append_nil] at hmain
    exact invB_of_items _ _ (ite_coll_items _ _ _ rfl rfl)
      hmain.1 hmain.2
  · rw [if_neg hwe]
    have hbm := buildModels_keys RMST.1.templAttrs now CST.working
      RMST.1.uidCounter (fun fs hfs => hpw fs (hwsub.mem hfs))
    have hmain := hsv
      (Collection.buildModels RMST.1.templAttrs RMST.1.uidCounter now
        CST.working).1 hbm.1 hbm.2
    exact invB_of_items _ _
      (ite_coll_items _ _ _ (by rw [add_items_noSort])
        (by rw [add_items_noSort]))
      hmain.1 hmain.2


theorem add_items_sorted (cc : Collection) (args : List JsFields)
    (now : Nat) :
    (Collection.add cc args false false now).coll.items
      = sortItems defaultKeepsBefore
          (cc.items ++ (Collection.buildModels cc.templAttrs cc.uidCounter
            now args).1) := by
  simp only [Collection.add, Collection.sortC]
  split <;> rfl

theorem addPres (c : Collection) (p : List JsFields) (now : Nat)
    (hinv : invB c = true) (hok : opOkB c (.addOp p) = true) :
    invB (c.add p false false now).coll = true := by
  have hp : payloadOkB p = true := (Bool.and_eq_true _ _ |>.mp hok).1
  have hdisj : ∀ fs ∈ p, ∀ m ∈ c.items,
      jsStrictEq (fs.get "id") (Model.keyOf m) = false := by
    intro fs hfs m hm
    have h1 := List.all_eq_true.mp (Bool.and_eq_true _ _ |>.mp hok).2 fs hfs
    have h2 := List.all_eq_true.mp h1 m hm
    simpa using h2
  have hreg : ∀ m ∈ c.items, m.uniqueField = "id" ∧
      (Model.keyOf m).prim = true ∧ (Model.keyOf m).truthy = true := by
    intro m hm
    have hx := (List.all_eq_true.mp
      ((Bool.and_eq_true _ _ |>.mp hinv).1)) m hm
    simp only [Bool.and_eq_true, beq_iff_eq] at hx
    exact ⟨hx.1.1, hx.1.2, hx.2⟩
  have hdist : (c.items.map Model.keyOf).Pairwise
      (fun a b => jsStrictEq a b = false) :=
    (keysDistinctB_iff_pairwise _).mp (Bool.and_eq_true _ _ |>.mp hinv).2
  have hpw : ∀ fs ∈ p, fs.cleanF = true ∧ (fs.get "id").prim = true ∧
      (fs.get "id").truthy = true := by
    intro fs hfs
    have hx := (List.all_eq_true.mp
      ((Bool.and_eq_true _ _ |>.mp hp).1)) fs hfs
    simp only [Bool.and_eq_true] at hx
    exact ⟨hx.1.1, hx.1.2, hx.2⟩
  have hpd : (p.map (fun fs => fs.get "id")).Pairwise
      (fun a b => jsStrictEq a b = false) :=
    (keysDistinctB_iff_pairwise _).mp (Bool.and_eq_true _ _ |>.mp hp).2
  have hbm := buildModels_keys c.templAttrs now p c.uidCounter hpw
  have hperm := sortItems_perm defaultKeepsBefore
    (c.items ++ (Collection.buildModels c.templAttrs c.uidCounter now p).1)
  have hsym : Symmetric (fun a b : JsVal => jsStrictEq a b = false) := by
    intro a b hab; rw [jsStrictEq_symm]; exact hab
  apply invB_of_items _ _ (add_items_sorted c p now)
  · intro y hy
    rcases List.mem_append.mp (hperm.mem_iff.mp hy) with h | h
    · exact hreg y h
    · exact hbm.2 y h
  · have hpiff := List.Perm.pairwise_iff @hsym (hperm.map Model.keyOf)
    rw [hpiff, List.map_append, List.pairwise_append]
    refine ⟨hdist, ?_, ?_⟩
    · rw [hbm.1]; exact hpd
    · intro a ha b hb
      rw [hbm.1] at hb
      obtain ⟨fs, hfs, rfl⟩ := List.mem_map.mp hb
      obtain ⟨m, hm, rfl⟩ := List.mem_map.mp ha
      rw [jsStrictEq_symm]
      exact hdisj fs hfs m hm

theorem runOpsPres : ∀ (ops : List COp) (c : Collection) (now : Nat),
    invB c = true → opsOkB c now ops = true →
    invB (runOps c now ops) = true := by
  intro ops
  induction ops with
  | nil => intro c now hinv _; simpa [runOps] using hinv
  | cons op rest ih =>
      intro c now hinv hops
      have h1 : opOkB c op = true := (Bool.and_eq_true _ _ |>.mp hops).1
      have h2 : opsOkB (applyOp c now op) now rest = true :=
        (Bool.and_eq_true _ _ |>.mp hops).2
      have hstep : invB (applyOp c now op) = true := by
        cases op with
        | addOp p => exact addPres c p now hinv h1
        | setOp p => exact setPres c p false now hinv h1
      exact ih (applyOp c now op) now hstep h2

/- ------------------------------------------------------------------ -/
/- Claim theorems                                                      -/
/- ------------------------------------------------------------------ -/

/-- C1 counterexample.  The claim quantifies over every collection whose
current keys are 1, 2, 3 and asserts the changed list holds exactly the
records whose attributes actually differ from the matching snapshot
element.  Here the current keys are 1, 2, 3 and the record with key 2
*already equals* its incoming element (its attributes at position 1 are
syntactically the snapshot element `exC1elem2`), yet the `set` against
snapshot keys 2, 3, 4 reports it as changed — because `Model.set` never
clears `changedAttributes`, so the stale entry from the earlier
reconciliation keeps the record in the changed list. -/
theorem C1_counterexample :
    exC1pre.items.map Model.keyOf = [.numV 3, .numV 2, .numV 1] ∧
    (exC1pre.items.map Model.attributes).get? 1 = some exC1elem2 ∧
    (exC1pre.items.map Model.changedAttributes).get? 1 =
      some (.cons "name" (.strV "x") .nil) ∧
    exC1res.removed.map (List.map Model.keyOf) = [[.numV 1]] ∧
    exC1res.added.map Model.keyOf = [.numV 4] ∧
    exC1res.changed.map Model.keyOf = [.numV 2] :=
  ⟨rfl, rfl, rfl, rfl, rfl, rfl⟩

/-- C1 (amended): on a freshly populated collection of clean records with
keys 1, 2, 3 (arbitrary name attributes, encoded by the two difference
switches), `set` with snapshot keys 2, 3, 4 removes exactly key 1 (as the
one-element splice array `remove` returns), adds exactly key 4, reports as
changed exactly the records among keys 2, 3 whose name actually differs,
and leaves final membership 2, 3, 4 in comparator (descending) order. -/
theorem C1_amended (d2 d3 : Bool) :
    (exColl123.set
      (.arr [exElem2 (if d2 then "b2" else "b"),
             exElem3 (if d3 then "c2" else "c"), exElem4]) false
      2).removed.map (List.map Model.keyOf) = [[.numV 1]] ∧
    (exColl123.set
      (.arr [exElem2 (if d2 then "b2" else "b"),
             exElem3 (if d3 then "c2" else "c"), exElem4]) false
      2).added.map Model.keyOf = [.numV 4] ∧
    (exColl123.set
      (.arr [exElem2 (if d2 then "b2" else "b"),
             exElem3 (if d3 then "c2" else "c"), exElem4]) false
      2).changed.map Model.keyOf =
      ((if d3 then [.numV 3] else []) ++ (if d2 then [.numV 2] else [])) ∧
    (exColl123.set
      (.arr [exElem2 (if d2 then "b2" else "b"),
             exElem3 (if d3 then "c2" else "c"), exElem4]) false
      2).coll.items.map Model.keyOf = [.numV 4, .numV 3, .numV 2] := by
  cases d2 <;> cases d3 <;> exact ⟨rfl, rfl, rfl, rfl⟩

/-- C2 counterexample.  A collection holding one record whose contents are
value-equal to `toJSON().items` (the mapped attributes coincide with the
snapshot syntactically), but whose `changedAttributes` is stale from an
earlier reconciliation: `set(collection.toJSON().items)` reports the
record as changed and fires `"change"`, because the change phase tests the
never-cleared `changedAttributes` rather than what this call changed. -/
theorem C2_counterexample :
    exC2coll.toJSONitems = exC2coll.items.map Model.attributes ∧
    exC2coll.items.map Model.changedAttributes =
      [.cons "name" (.strV "z") .nil] ∧
    exC2res.added = [] ∧ exC2res.removed = [] ∧
    exC2res.changed.map Model.keyOf = [.numV 1] ∧
    containsChange exC2res.events = true :=
  ⟨rfl, rfl, rfl, rfl, rfl, rfl⟩

/-- C3 counterexample.  A single `set` call whose snapshot repeats key 1
on a fresh collection leaves two records with the same
`attributes[uniqueKeyField]` value: neither `set`'s add phase nor `add`
deduplicates keys. -/
theorem C3_counterexample :
    exC3res.coll.items.map Model.keyOf = [.numV 1, .numV 1] ∧
    ¬ (exC3res.coll.items.map Model.keyOf).Nodup := by
  refine ⟨rfl, ?_⟩
  rw [show exC3res.coll.items.map Model.keyOf = [.numV 1, .numV 1] from rfl]
  simp

/-- C4: the claim is right and the code wrong.  `Collection.isDirty`
returns `this._isDirty` (line 104), but the constructor and every mutator
assign `this._dirty`, so after a successful membership-changing `add` the
internal `_dirty` flag is `true` yet `isDirty()` returns `undefined` — not
`true`; and after `clean(true)` — which does reset `_dirty` and every
item's dirty flag — `isDirty()` still returns `undefined`, not `false`. -/
theorem C4_isDirty_bug :
    exC4res.coll.dirty = true ∧
    Collection.isDirty exC4res.coll = .undef ∧
    Collection.isDirty exC4res.coll ≠ .boolV true ∧
    (exC4res.coll.clean true).dirty = false ∧
    (exC4res.coll.clean true).items.all (fun m => !m.dirty) = true ∧
    Collection.isDirty (exC4res.coll.clean true) = .undef ∧
    Collection.isDirty (exC4res.coll.clean true) ≠ .boolV false :=
  ⟨rfl, rfl, fun h => JsVal.noConfusion h, rfl, rfl, rfl,
   fun h => JsVal.noConfusion h⟩

/-- C5 counterexample.  The single key/value form of `Model.set` records
the entry in `changedAttributes` unconditionally (line 963): setting
`name` to its current value `"a"` — equal per the equality oracle — still
populates `changedAttributes` and advances `modified` (from 0 to the call
tick 9) although no attribute actually changed in the call. -/
theorem C5_counterexample :
    jsEq (exModel0.attributes.get "name") (.strV "a") = true ∧
    exModel0.changedAttributes = .nil ∧
    exModel0.modified = 0 ∧
    exC5res.self.changedAttributes = .cons "name" (.strV "a") .nil ∧
    exC5res.self.modified = 9 :=
  ⟨rfl, rfl, rfl, rfl, rfl⟩

/-- C5 (amended): for every record, in the external (`internal = false`)
forms of `Model.set`: the single key/value form records the entry in
`changedAttributes` unconditionally (no equality check) and always
advances `modified` to the call tick; the mapping form leaves
`changedAttributes` exactly as the change-collection loop does — a key is
present afterwards exactly when it was already there or some patch entry
under it differs per the equality oracle from the current attribute — and
`modified` advances exactly when the resulting (accumulated, never
cleared) `changedAttributes` is non-empty, else stays put. -/
theorem C5_amended (m : Model) (silent : Bool) (now : Nat) (k : String)
    (v : JsVal) (patch : JsFields) :
    ((m.set (.kv k v) false silent now).self.changedAttributes.hasKey k = true ∧
     (m.set (.kv k v) false silent now).self.modified = now) ∧
    ((m.set (.mapping patch) false silent now).self.changedAttributes
        = (m.mappingChanges false patch).changedAttributes ∧
     (∀ q : String,
        ((m.set (.mapping patch) false silent
            now).self.changedAttributes.hasKey q = true) ↔
          (m.changedAttributes.hasKey q = true ∨
           ∃ w, (q, w) ∈ patch.toList ∧
             jsEq (m.attributes.get q) w = false)) ∧
     (m.set (.mapping patch) false silent now).self.modified
        = (if (m.mappingChanges false patch).changedAttributes.isEmpty
           then m.modified else now)) := by
  refine ⟨⟨?_, ?_⟩, ?_, ?_, ?_⟩
  · simp only [Model.set, Bool.false_eq_true, if_false]
    rw [if_pos (JsFields.set_length_ne_zero _ _ _)]
    exact JsFields.hasKey_set_self _ _ _
  · simp only [Model.set, Bool.false_eq_true, if_false]
    rw [if_pos (JsFields.set_length_ne_zero _ _ _)]
  · simp only [Model.set, Bool.false_eq_true, if_false]
    split <;> rfl
  · intro q
    have hca : (m.set (.mapping patch) false silent
        now).self.changedAttributes
        = (m.mappingChanges false patch).changedAttributes := by
      simp only [Model.set, Bool.false_eq_true, if_false]
      split <;> rfl
    rw [hca]
    exact Model.mappingChanges_hasKey_iff patch m q
  · have hmod := (Model.mappingChanges_frame false patch m).2.2.1
    cases hc : (Model.mappingChanges m false patch).changedAttributes with
    | nil =>
        simp only [Model.set, Bool.false_eq_true, if_false]
        rw [hc]
        rw [if_neg (by simp [JsFields.length])]
        simpa [JsFields.isEmpty] using hmod
    | cons k0 v0 rest0 =>
        simp only [Model.set, Bool.false_eq_true, if_false]
        rw [hc]
        rw [if_pos (by simp [JsFields.length])]
        simp [JsFields.isEmpty]

/-- C5 witness: the amended theorem applied at the clean fixture record —
a same-value single key/value set records the entry and advances
`modified`; a differing mapping entry ends up recorded; an all-equal
mapping patch (empty accumulated `changedAttributes`) leaves `modified`
put. -/
theorem C5_amended_witness :
    (exModel0.set (.kv "name" (.strV "a")) false false
        9).self.changedAttributes.hasKey "name" = true ∧
    (exModel0.set (.kv "name" (.strV "a")) false false 9).self.modified = 9 ∧
    (exModel0.set (.mapping (.cons "name" (.strV "q") .nil)) false false
        9).self.changedAttributes.hasKey "name" = true ∧
    (exModel0.set (.mapping (.cons "name" (.strV "a") .nil)) false false
        9).self.modified = exModel0.modified :=
  ⟨(C5_amended exModel0 false 9 "name" (.strV "a")
      (.cons "name" (.strV "a") .nil)).1.1,
   (C5_amended exModel0 false 9 "name" (.strV "a")
      (.cons "name" (.strV "a") .nil)).1.2,
   ((C5_amended exModel0 false 9 "name" (.strV "a")
      (.cons "name" (.strV "q") .nil)).2.2.1 "name").mpr
     (Or.inr ⟨.strV "q", by simp [JsFields.toList], by rfl⟩),
   by
     rw [(C5_amended exModel0 false 9 "name" (.strV "a")
       (.cons "name" (.strV "a") .nil)).2.2.2]
     rfl⟩

/-- C6: the claim's error contract does not hold of the program.
`Collection.set` does validate its argument before touching anything
(lines 224-232), but the `"error"` trigger runs the default handler
`onError` (bound at line 81), whose body (line 772) calls `this.error` —
a method no Collection has — so for every collection state and every
non-array argument the call raises `TypeError` and never returns the
falsy sentinel the claim (and the `return false` at line 231) promises;
the collection itself is left in exactly its prior state when the
exception propagates. -/
theorem C6_set_error_throws (c : Collection) (v : JsVal) (silent : Bool)
    (now : Nat) :
    let r := c.set (.nonArray v) silent now
    r.threw = true ∧ r.coll = c ∧ r.added = [] ∧ r.removed = [] ∧
    r.changed = [] ∧
    r.events = [.errorE
      "Collection.set() must receive an array of items as the first argument"] :=
  ⟨rfl, rfl, rfl, rfl, rfl, rfl⟩

/-- C7: the claim describes the intended behaviour; the code diverges.
On a collection with keys 2, 1, removing the parseable identifier 99 —
which matches no record — does not fail: `indexOf` yields `-1`,
`splice(-1, 1)` removes the **last** record (key 1), the collection is
marked dirty, and no `"error"` fires; the claim (and §9 of the spec,
which calls this a bug to fix) requires an error event and no mutation. -/
theorem C7_remove_unmatched_bug :
    exC7coll.items.all
      (fun m => !(jsStrictEq (Model.keyOf m) (.numV 99))) = true ∧
    exC7coll.items.map Model.keyOf = [.numV 2, .numV 1] ∧
    exC7res.ok = true ∧
    containsError exC7res.events = false ∧
    exC7res.coll.items.map Model.keyOf = [.numV 2] ∧
    exC7res.removedArr.map Model.keyOf = [.numV 1] ∧
    exC7res.coll.dirty = true :=
  ⟨rfl, rfl, rfl, rfl, rfl, rfl, rfl⟩

/-- C8 counterexample.  Adding an item with no `id` to a freshly
initialized collection auto-assigns the generator's first value — `0` —
as the key: the key attribute is present but `0` is falsy, refuting
"non-empty (a truthy value)". -/
theorem C8_counterexample :
    exC8res.added.map Model.keyOf = [.numV 0] ∧
    exC8res.added.map (fun m => (Model.keyOf m).truthy) = [false] :=
  ⟨rfl, rfl⟩

/-- C8 (amended): after every `Model` construction the unique-key
attribute is *present* (never `undefined`), and it is truthy except in
the single case where it was auto-assigned from the counter value `0`
(the generator's first value after a collection initialization), when it
is the falsy number `0`. -/
theorem C8_amended (attrs : JsFields) (hc : Bool) (uid now : Nat) :
    Model.keyOf (Model.make attrs hc uid now).1 ≠ .undef ∧
    ((Model.keyOf (Model.make attrs hc uid now).1).truthy = true ∨
      Model.keyOf (Model.make attrs hc uid now).1 = .numV 0) := by
  by_cases hN : Model.needsId attrs = true
  · have hk : Model.keyOf (Model.make attrs hc uid now).1
        = .numV (Int.ofNat uid) := by
      simp [Model.make, Model.keyOf, hN, JsFields.get_set_self]
    rw [hk]
    refine ⟨fun h => JsVal.noConfusion h, ?_⟩
    by_cases hu : uid = 0
    · subst hu; right; rfl
    · left; simp [JsVal.truthy, beq_iff_eq]; omega
  · have hT : (attrs.get "id").truthy = true := by
      have := Bool.not_eq_true _ |>.mp hN
      simp only [Model.needsId, Bool.or_eq_false_iff, Bool.not_eq_false'] at this
      exact this.2
    have hk : Model.keyOf (Model.make attrs hc uid now).1 = attrs.get "id" := by
      simp [Model.make, Model.keyOf, hN]
    rw [hk]
    exact ⟨JsVal.truthy_ne_undef _ hT, Or.inl hT⟩

/-- C9 counterexample.  `Model.get` with a list of keys decides whether to
deep-copy by `typeof model[k]` — the type of the model's own property
named `k`, not the stored attribute: for the structured attribute value
under the non-property key `"data"`, the copy branch is not taken and the
stored object itself is handed back by reference, so mutating the result
mutates the record's attributes, contrary to the claim. -/
theorem C9_counterexample :
    JsVal.isObj (exModel9.attributes.get "data") = true ∧
    Model.getCopiesAt exModel9 "data" = false ∧
    Model.getList exModel9 ["data"]
      = .cons "data" (.objV (.cons "x" (.numV 1) .nil)) .nil :=
  ⟨rfl, rfl, rfl⟩

/-- C10 counterexample.  `Model.set` with a mapping patch and
`internal = true` *does* mutate the original record: the change-collection
loop (lines 939-947) runs before the local variable is rebound to the
copy, so the differing entry `foo` lands in the original's
`changedAttributes` (empty before the call, non-empty after), even though
the merge itself is applied to the returned copy. -/
theorem C10_counterexample :
    exModel0.changedAttributes = .nil ∧
    exC10res.retIsCopy = true ∧
    exC10res.self.changedAttributes = .cons "foo" (.strV "bar") .nil :=
  ⟨rfl, rfl, rfl⟩

/-- C10 (amended): for every record, patch, silent flag and clock tick,
the internal mapping form of `Model.set` returns the rebound copy (marked
dirty, render cache cleared), and the original record keeps its
attributes, dirty flag, modified timestamp, render flag, unique field and
expandos — its only mutation is `changedAttributes`, which receives the
entries the change-collection loop found differing (the loop runs before
the rebinding). -/
theorem C10_amended (m : Model) (patch : JsFields) (silent : Bool)
    (now : Nat) :
    let r := m.set (.mapping patch) true silent now
    r.retIsCopy = true ∧
    r.self.attributes = m.attributes ∧
    r.self.dirty = m.dirty ∧
    r.self.modified = m.modified ∧
    r.self.hasBeenRendered = m.hasBeenRendered ∧
    r.self.uniqueField = m.uniqueField ∧
    r.self.extraProps = m.extraProps ∧
    r.self.changedAttributes =
      (m.mappingChanges true patch).changedAttributes ∧
    r.ret.dirty = true ∧ r.ret.hasBeenRendered = false := by
  intro r
  have hf := Model.mappingChanges_frame true patch m
  exact ⟨rfl, hf.1, hf.2.1, hf.2.2.1, hf.2.2.2.1, hf.2.2.2.2.1,
    hf.2.2.2.2.2, rfl, rfl, rfl⟩

/-- C9 (amended): for every record and list of requested keys, `get`
returns an entry for every requested key and never fails; the value is a
deep copy exactly when the *record object* has an object-typed property of
the requested name (`typeof model[k] === "object"`), and otherwise the
stored attribute value itself, by reference; in both cases a clean
structured stored value comes back tree-equal to what is stored (only
freshness differs); an unknown ordinary key yields `undefined`. -/
theorem C9_amended (m : Model) (ks : List String) :
    ∀ k ∈ ks,
      (Model.getList m ks).hasKey k = true ∧
      (Model.getList m ks).get k =
        (if Model.getCopiesAt m k
         then .objV (jqExtendEmptyOne (m.attributes.get k))
         else m.attributes.get k) ∧
      (∀ fs, m.attributes.get k = .objV fs → fs.cleanF = true →
        (Model.getList m ks).get k = .objV fs) ∧
      (m.attributes.hasKey k = false → Model.getCopiesAt m k = false →
        (Model.getList m ks).get k = .undef) := by
  intro k hk
  have h1 := Model.getListGo_hasKey m ks .nil k hk
  have h2 := Model.getListGo_get m ks .nil k hk
  refine ⟨h1, h2, ?_, ?_⟩
  · intro fs hfs hcl
    rw [show Model.getList m ks = Model.getListGo m .nil ks from rfl, h2, hfs]
    by_cases hc : Model.getCopiesAt m k = true
    · rw [if_pos hc]
      simp [jqExtendEmptyOne, jqMergeFs_nil_clean fs hcl]
    · rw [if_neg hc]
  · intro hnk hc
    rw [show Model.getList m ks = Model.getListGo m .nil ks from rfl, h2]
    rw [if_neg (by simp [hc])]
    exact JsFields.get_undef_of_not_hasKey _ _ hnk

/-- C9 witness: the amended theorem applied at the fixture record — the
requested key `"data"` is present in the result, and its clean structured
stored value comes back tree-equal. -/
theorem C9_amended_witness :
    (Model.getList exModel9 ["data"]).hasKey "data" = true ∧
    (Model.getList exModel9 ["data"]).get "data"
      = .objV (.cons "x" (.numV 1) .nil) :=
  have h := C9_amended exModel9 ["data"] "data" (by simp)
  ⟨h.1, h.2.2.1 _ rfl rfl⟩

/-- C2 (amended): on a collection whose records are clean — empty
`changedAttributes` (as after `clean(true)` or fresh adds), clean
attribute objects, primitive keys, default unique field — calling
`set(collection.toJSON().items)` produces empty added, removed and
changed lists and does not fire `"change"` (only the unconditional final
sort fires `"sort"`). -/
theorem C2_amended (c : Collection) (silent : Bool) (now : Nat)
    (h : cleanStateB c = true) :
    (c.set (.arr c.toJSONitems) silent now).added = [] ∧
    (c.set (.arr c.toJSONitems) silent now).removed = [] ∧
    (c.set (.arr c.toJSONitems) silent now).changed = [] ∧
    containsChange (c.set (.arr c.toJSONitems) silent now).events = false := by
  have hstate : ∀ m ∈ c.items, m.uniqueField = "id" ∧
      (Model.keyOf m).prim = true ∧
      m.changedAttributes = .nil ∧ m.attributes.cleanF = true := by
    intro m hm
    have hx := (List.all_eq_true.mp h) m hm
    simp only [Bool.and_eq_true, beq_iff_eq] at hx
    exact ⟨hx.1.1.1, hx.1.1.2, JsFields.isEmpty_nil _ hx.1.2, hx.2⟩
  have hsnap : c.toJSONitems = c.items.map Model.attributes :=
    List.map_congr_left
      (fun m hm => jqMergeFs_nil_clean _ (hstate m hm).2.2.2)
  have hmat : ∀ m ∈ c.items,
      (idxOfMatch (fun x => jsStrictEq (x.get m.uniqueField) (Model.keyOf m))
        (c.items.map Model.attributes)).isSome = true := by
    intro m hm
    exact idxOfMatch_isSome_of _ _ m.attributes (List.mem_map_of_mem _ hm)
      (jsStrictEq_refl_prim _ (hstate m hm).2.1)
  have hfR : c.items.filter (fun m =>
      !(Collection.setMatched (c.items.map Model.attributes) m)) = [] := by
    rw [List.filter_eq_nil_iff]
    intro m hm
    simp [Collection.setMatched, hmat m hm]
  have hfC : c.items.filter
      (Collection.setMatched (c.items.map Model.attributes)) = c.items := by
    rw [List.filter_eq_self]
    intro m hm
    exact hmat m hm
  have hfold := changeFold_selfSnap now c.items c.items [] false
    (fun m hm => ⟨(hstate m hm).2.1, (hstate m hm).2.2.1, (hstate m hm).2.2.2⟩)
  rw [hsnap]
  simp only [Collection.set, hfR, hfC, List.foldl_nil, List.isEmpty_nil,
    if_true, hfold.1, hfold.2, List.isEmpty_cons]
  simp [containsChange, Collection.sortC, CEvent.isChange]

/-- C2 witness: the amended theorem applied to the concrete clean
three-record collection, its cleanliness discharged by evaluation. -/
theorem C2_amended_witness :
    cleanStateB exColl123 = true ∧
    (exColl123.set (.arr exColl123.toJSONitems) false 9).added = [] ∧
    (exColl123.set (.arr exColl123.toJSONitems) false 9).removed = [] ∧
    (exColl123.set (.arr exColl123.toJSONitems) false 9).changed = [] ∧
    containsChange
      (exColl123.set (.arr exColl123.toJSONitems) false 9).events = false :=
  have h := C2_amended exColl123 false 9 (by rfl)
  ⟨rfl, h.1, h.2.1, h.2.2.1, h.2.2.2⟩

/-- C3 (amended): the at-most-one-per-key invariant holds after every
finite sequence of `add`/`set` calls provided every supplied item carries
an explicit primitive truthy unique-key value, the keys within each call
are pairwise distinct, and keys supplied to `add` are disjoint from the
current membership; neither `add` nor `set`'s add phase deduplicates, so
without these provisos two Records can share a key. -/
theorem C3_amended (templ : JsFields) (now : Nat) (ops : List COp)
    (h : opsOkB (Collection.make templ) now ops = true) :
    keysDistinctB ((runOps (Collection.make templ) now ops).items.map
      Model.keyOf) = true := by
  have hfull := runOpsPres ops (Collection.make templ) now rfl h
  exact (Bool.and_eq_true _ _ |>.mp hfull).2

theorem C3_amended_witness :
    opsOkB (Collection.make .nil) 1
        [COp.addOp [exItem1, exItem2],
         COp.setOp [exElem2 "x", exItem3]] = true ∧
    keysDistinctB ((runOps (Collection.make .nil) 1
        [COp.addOp [exItem1, exItem2],
         COp.setOp [exElem2 "x", exItem3]]).items.map
      Model.keyOf) = true :=
  ⟨by rfl, C3_amended .nil 1
    [COp.addOp [exItem1, exItem2],
     COp.setOp [exElem2 "x", exItem3]] (by rfl)⟩

end PVC
